import Mathlib

/-!
The base64 entropy detector of talisman (`detector/filecontent_detector.go`)

A shallow embedding of the detector and the proofs of its specification.

Modelling conventions.

* A Go `string` (and a `[]byte`) is a list of bytes, valid UTF-8 or not.  `len` is the
  length of that list.  `for _, c := range s` decodes the bytes with `decodeRune`
  (an invalid byte yields `U+FFFD` and advances by one byte), and `string(c)` encodes a
  rune back to bytes with `runeToString`.
* Go's `int` is modelled by `Int`; the only integers computed are lengths and counters
  bounded by the length of a string, so overflow cannot occur.
* `float64` arithmetic and `math.Log2` are not part of the repository: the functions that
  compute with floats take the arithmetic as a parameter (`FloatOps`).  What is proved for
  every `FloatOps` holds whatever the rounding is; the numerical statements are proved for
  the exact arithmetic of the real numbers (`realOps`).
* A `map[string]bool` is a finite association list with unique keys; a missing key reads
  as `false`.
* The result sink `*DetectionResults` is modelled by the sequence of calls it receives.
* Logging is not modelled.
-/

namespace Talisman

/-! ## Strings, bytes and runes -/

/-- A Go `byte`. -/
abbrev Byte := Fin 256

/-- A Go `string`: a sequence of bytes. -/
abbrev GoString := List Byte

/-- A Go `rune`: a Unicode code point. -/
abbrev Rune := Nat

/-- The rune `U+FFFD` produced when decoding invalid UTF-8 (`utf8.RuneError`). -/
def RuneError : Rune := 0xFFFD

/-- A UTF-8 continuation byte, `0x80 ..= 0xBF`. -/
def isCont (b : Byte) : Bool := 0x80 ≤ b.val && b.val ≤ 0xBF

/-- The rune at the head of a non-empty string and the number of bytes it occupies, as
Go's `range` loop decodes it: one byte below `0x80` is itself; a well-formed two, three or
four byte sequence (not overlong, not a surrogate, at most `U+10FFFF`) is its code point;
anything else is `RuneError` of width one. -/
def decodeRune : GoString → Rune × Nat
  | [] => (RuneError, 1)
  | b0 :: rest =>
    if b0.val < 0x80 then (b0.val, 1)
    else if 0xC0 ≤ b0.val ∧ b0.val < 0xE0 then
      match rest with
      | b1 :: _ =>
        if isCont b1 then
          let r := (b0.val % 32) * 64 + b1.val % 64
          if 0x7F < r then (r, 2) else (RuneError, 1)
        else (RuneError, 1)
      | _ => (RuneError, 1)
    else if 0xE0 ≤ b0.val ∧ b0.val < 0xF0 then
      match rest with
      | b1 :: b2 :: _ =>
        if isCont b1 && isCont b2 then
          let r := (b0.val % 16) * 4096 + (b1.val % 64) * 64 + b2.val % 64
          if 0x7FF < r ∧ ¬ (0xD800 ≤ r ∧ r ≤ 0xDFFF) then (r, 3) else (RuneError, 1)
        else (RuneError, 1)
      | _ => (RuneError, 1)
    else if 0xF0 ≤ b0.val ∧ b0.val < 0xF8 then
      match rest with
      | b1 :: b2 :: b3 :: _ =>
        if isCont b1 && isCont b2 && isCont b3 then
          let r := (b0.val % 8) * 262144 + (b1.val % 64) * 4096 + (b2.val % 64) * 64
            + b3.val % 64
          if 0xFFFF < r ∧ r ≤ 0x10FFFF then (r, 4) else (RuneError, 1)
        else (RuneError, 1)
      | _ => (RuneError, 1)
    else (RuneError, 1)

/-- The conversion `string(c)` of a rune: its UTF-8 encoding; a surrogate or a value
above `U+10FFFF` is encoded as `U+FFFD`. -/
def runeToString (r : Rune) : GoString :=
  if r ≤ 0x7F then [Fin.ofNat r]
  else if r ≤ 0x7FF then [Fin.ofNat (0xC0 + r / 64), Fin.ofNat (0x80 + r % 64)]
  else if 0x10FFFF < r ∨ (0xD800 ≤ r ∧ r ≤ 0xDFFF) then [0xEF, 0xBF, 0xBD]
  else if r ≤ 0xFFFF then
    [Fin.ofNat (0xE0 + r / 4096), Fin.ofNat (0x80 + r / 64 % 64), Fin.ofNat (0x80 + r % 64)]
  else
    [Fin.ofNat (0xF0 + r / 262144), Fin.ofNat (0x80 + r / 4096 % 64),
      Fin.ofNat (0x80 + r / 64 % 64), Fin.ofNat (0x80 + r % 64)]

/-- The loop of `rangeRunes`: `skip` counts the bytes still to be passed over because they
belong to the rune decoded last. -/
def rangeRunesAux : Nat → GoString → List Rune
  | _, [] => []
  | 0, b :: t => (decodeRune (b :: t)).1 :: rangeRunesAux ((decodeRune (b :: t)).2 - 1) t
  | k + 1, _ :: t => rangeRunesAux k t

/-- The runes that `for _, c := range s` visits, in order. -/
def rangeRunes (s : GoString) : List Rune := rangeRunesAux 0 s

/-- The bytes of a string literal of the source (its UTF-8 encoding). -/
def lit (s : String) : GoString := s.toList.flatMap (fun c => runeToString c.toNat)

/-! ## The parts of the Go library that the detector calls -/

/-- The loop of `stringsCount` for a non-empty `substr`: after a match the remaining
`substr.length - 1` bytes of the match are passed over (instances do not overlap). -/
def stringsCountAux (substr : GoString) : Nat → GoString → Nat
  | _, [] => 0
  | 0, b :: t =>
    if substr.isPrefixOf (b :: t) then 1 + stringsCountAux substr (substr.length - 1) t
    else stringsCountAux substr 0 t
  | k + 1, _ :: t => stringsCountAux substr k t

/-- The function `strings.Count(s, substr)`: the number of non-overlapping instances of
`substr` in `s`; for an empty `substr`, one more than the number of runes of `s`. -/
def stringsCount (s substr : GoString) : Int :=
  if substr = [] then ((rangeRunes s).length : Int) + 1
  else (stringsCountAux substr 0 s : Int)

/-- The loop of `stringsSplit` for a non-empty `sep`; `cur` is the piece being built. -/
def stringsSplitAux (sep : GoString) : Nat → GoString → GoString → List GoString
  | _, cur, [] => [cur]
  | 0, cur, b :: t =>
    if sep.isPrefixOf (b :: t) then cur :: stringsSplitAux sep (sep.length - 1) [] t
    else stringsSplitAux sep 0 (cur ++ [b]) t
  | k + 1, cur, _ :: t => stringsSplitAux sep k cur t

/-- The function `strings.Split(s, sep)`: the pieces of `s` between the instances of
`sep`; for an empty `sep`, one piece per rune.  The detector calls it with the separator
`"\n"` only. -/
def stringsSplit (s sep : GoString) : List GoString :=
  if sep = [] then (rangeRunes s).map runeToString
  else stringsSplitAux sep 0 [] s

/-- The predicate `unicode.IsSpace`. -/
def isSpace (r : Rune) : Bool :=
  (0x09 ≤ r && r ≤ 0x0D) || r = 0x20 || r = 0x85 || r = 0xA0 || r = 0x1680
    || (0x2000 ≤ r && r ≤ 0x200A) || r = 0x2028 || r = 0x2029 || r = 0x202F
    || r = 0x205F || r = 0x3000

/-- The loop of `stringsFields`.  At a rune boundary (`skip = 0`) the next rune is decoded:
a space closes the field being built, any other rune extends it.  The remaining bytes of
that rune are then passed over (`keep = false`, a space) or appended (`keep = true`). -/
def stringsFieldsAux : Nat → Bool → GoString → GoString → List GoString
  | _, _, cur, [] => if cur = [] then [] else [cur]
  | 0, _, cur, b :: t =>
    if isSpace (decodeRune (b :: t)).1 then
      if cur = [] then stringsFieldsAux ((decodeRune (b :: t)).2 - 1) false [] t
      else cur :: stringsFieldsAux ((decodeRune (b :: t)).2 - 1) false [] t
    else stringsFieldsAux ((decodeRune (b :: t)).2 - 1) true (cur ++ [b]) t
  | k + 1, keep, cur, b :: t =>
    if keep then stringsFieldsAux k keep (cur ++ [b]) t else stringsFieldsAux k keep cur t

/-- The function `strings.Fields(s)`: the maximal pieces of `s` without white space, in
order; never an empty piece. -/
def stringsFields (s : GoString) : List GoString := stringsFieldsAux 0 false [] s

/-- Go's `map[string]bool`: finitely many keys, each with one value. -/
abbrev StringBoolMap := List (GoString × Bool)

/-- The read `m[k]`: the value stored under `k`, `false` when `k` is not a key. -/
def mapGet (m : StringBoolMap) (k : GoString) : Bool := (m.lookup k).getD false

/-- The assignment `m[k] = v`. -/
def mapSet (m : StringBoolMap) (k : GoString) (v : Bool) : StringBoolMap :=
  if m.any (fun e => e.1 == k) then m.map (fun e => if e.1 == k then (k, v) else e)
  else m ++ [(k, v)]

/-- The `float64` operations the detector uses, taken as a parameter. -/
structure FloatOps (F : Type) where
  /-- The value of a numeric constant of the source (`0`, `0.0`, `4.5`). -/
  const : ℚ → F
  /-- The conversion `float64(n)` of an `int`. -/
  ofInt : Int → F
  /-- The quotient `x / y`. -/
  div : F → F → F
  /-- The product `x * y`. -/
  mul : F → F → F
  /-- The difference `x - y`. -/
  sub : F → F → F
  /-- The function `math.Log2`. -/
  log2 : F → F
  /-- The comparison `x > y`. -/
  gt : F → F → Bool

/-- The exact arithmetic of the real numbers. -/
noncomputable def realOps : FloatOps ℝ where
  const q := (q : ℝ)
  ofInt n := (n : ℝ)
  div x y := x / y
  mul x y := x * y
  sub x y := x - y
  log2 x := Real.logb 2 x
  gt x y := @decide (y < x) (Classical.propDecidable _)

/-! ## The detector -/

/-- The constant `BASE64_CHARS`. -/
def BASE64_CHARS : GoString :=
  lit "ABCDEFGHIJKLMNOPQRSTUVWXYZabcdefghijklmnopqrstuvwxyz0123456789+/="

/-- The constant `MIN_SECRET_LENGTH`. -/
def MIN_SECRET_LENGTH : Int := 20

/-- The constant `BASE64_ENTROPY_THRESHOLD`. -/
def BASE64_ENTROPY_THRESHOLD : ℚ := 4.5

/-- The struct `FileContentDetector`.  The type `AggressiveFileContentDetector` is
declared elsewhere; only its method `Test(word) string` is used, so the field holds
that method, `none` standing for the `nil` pointer. -/
structure FileContentDetector where
  base64Map : StringBoolMap
  aggressiveDetector : Option (GoString → GoString)

/-- The method `initBase64Map`, returning the map it stores in the detector. -/
def initBase64Map : StringBoolMap :=
  (List.range BASE64_CHARS.length).foldl
    (fun m i => mapSet m (runeToString (BASE64_CHARS.getD i 0).val) true) []

/-- The constructor `NewFileContentDetector`. -/
def NewFileContentDetector : FileContentDetector :=
  { base64Map := initBase64Map, aggressiveDetector := none }

/-- The method `AggressiveMode`; `aggressiveTest` is the method `Test` of the
`AggressiveFileContentDetector` it installs. -/
def AggressiveMode (fc : FileContentDetector) (aggressiveTest : GoString → GoString) :
    FileContentDetector :=
  { fc with aggressiveDetector := some aggressiveTest }

/-- The method `getShannonEntropy`. -/
def getShannonEntropy {F : Type} (A : FloatOps F) (str superSet : GoString) : F :=
  if str = [] then A.const 0
  else
    (rangeRunes superSet).foldl
      (fun entropy c =>
        let p := A.div (A.ofInt (stringsCount str (runeToString c))) (A.ofInt str.length)
        if A.gt p (A.const 0) then A.sub entropy (A.mul p (A.log2 p)) else entropy)
      (A.const 0)

/-- The local variables of the loop of `getEntropyCandidatesWithinWord`. -/
structure ScanState where
  candidates : List GoString
  count : Int
  subSet : GoString
deriving DecidableEq, Repr

/-- The body of the `range` loop of `getEntropyCandidatesWithinWord`, for the rune `c`. -/
def scanStep (minCandidateLength : Int) (superSet : StringBoolMap) (st : ScanState)
    (c : Rune) : ScanState :=
  if mapGet superSet (runeToString c) then
    { st with subSet := st.subSet ++ runeToString c, count := st.count + 1 }
  else
    { candidates :=
        if st.count > minCandidateLength then st.candidates ++ [st.subSet]
        else st.candidates
      count := 0
      subSet := [] }

/-- The method `getEntropyCandidatesWithinWord`. -/
def getEntropyCandidatesWithinWord (word : GoString) (minCandidateLength : Int)
    (superSet : StringBoolMap) : List GoString :=
  if (word.length : Int) < minCandidateLength then []
  else
    let st := (rangeRunes word).foldl (scanStep minCandidateLength superSet) ⟨[], 0, []⟩
    if st.count > minCandidateLength then st.candidates ++ [st.subSet] else st.candidates

/-- The `range` loop of `checkBase64Encoding` over the candidates: `some word` when the
loop returns `word`, `none` when it runs to its end. -/
def checkBase64EncodingLoop {F : Type} (A : FloatOps F) (word : GoString) :
    List GoString → Option GoString
  | [] => none
  | candidate :: rest =>
    let entropy := getShannonEntropy A candidate BASE64_CHARS
    if A.gt entropy (A.const BASE64_ENTROPY_THRESHOLD) then some word
    else checkBase64EncodingLoop A word rest

/-- The method `checkBase64Encoding`. -/
def checkBase64Encoding {F : Type} (A : FloatOps F) (fc : FileContentDetector)
    (word : GoString) : GoString :=
  let entropyCandidates := getEntropyCandidatesWithinWord word MIN_SECRET_LENGTH fc.base64Map
  match checkBase64EncodingLoop A word entropyCandidates with
  | some res => res
  | none =>
    match fc.aggressiveDetector with
    | some aggressiveTest => aggressiveTest word
    | none => []

/-- The `range` loop of `checkEachWord` over the words of the line. -/
def checkEachWordLoop {F : Type} (A : FloatOps F) (fc : FileContentDetector) :
    List GoString → GoString
  | [] => []
  | word :: words =>
    let res := checkBase64Encoding A fc word
    if res ≠ [] then res else checkEachWordLoop A fc words

/-- The method `checkEachWord`. -/
def checkEachWord {F : Type} (A : FloatOps F) (fc : FileContentDetector)
    (line : GoString) : GoString :=
  checkEachWordLoop A fc (stringsFields line)

/-- The `range` loop of `checkEachLine` over the lines of the content. -/
def checkEachLineLoop {F : Type} (A : FloatOps F) (fc : FileContentDetector) :
    List GoString → GoString
  | [] => []
  | line :: lines =>
    let res := checkEachWord A fc line
    if res ≠ [] then res else checkEachLineLoop A fc lines

/-- The method `checkEachLine`. -/
def checkEachLine {F : Type} (A : FloatOps F) (fc : FileContentDetector)
    (content : GoString) : GoString :=
  checkEachLineLoop A fc (stringsSplit content (lit "\n"))

/-- The method `checkBase64EncodingForFile`. -/
def checkBase64EncodingForFile {F : Type} (A : FloatOps F) (fc : FileContentDetector)
    (data : GoString) : GoString :=
  checkEachLine A fc data

/-- The type `git_repo.Addition`, with the two fields the detector reads. -/
structure Addition where
  Path : GoString
  Data : GoString
deriving DecidableEq, Repr

/-- A call received by the result sink. -/
inductive SinkCall where
  | Ignore (path reason : GoString)
  | Fail (path message : GoString)
deriving DecidableEq, Repr

/-- The result sink `*DetectionResults`, as the calls it has received, oldest first. -/
abbrev DetectionResults := List SinkCall

/-- The body of the loop of `Test`, for one addition. -/
def testAddition {F : Type} (A : FloatOps F) (fc : FileContentDetector)
    (ignores : Addition → Bool) (result : DetectionResults) (addition : Addition) :
    DetectionResults :=
  if ignores addition then
    result ++ [SinkCall.Ignore addition.Path
      (addition.Path ++ lit " was ignored by .talismanignore")]
  else
    let base64Text := checkBase64EncodingForFile A fc addition.Data
    if base64Text ≠ [] then
      result ++ [SinkCall.Fail addition.Path
        (lit "Expected file to not to contain base64 encoded texts such as: " ++ base64Text)]
    else result

/-- The method `Test`; `ignores` is the method `Deny` of the ignore policy. -/
def Test {F : Type} (A : FloatOps F) (fc : FileContentDetector) (additions : List Addition)
    (ignores : Addition → Bool) (result : DetectionResults) : DetectionResults :=
  additions.foldl (testAddition A fc ignores) result

/-! ## Notions of the specification -/

/-- The string obtained by appending `string(c)` for each rune `c` of `rs` in order. -/
def runesToString (rs : List Rune) : GoString := rs.flatMap runeToString

/-- The contiguous part `l[i:j]` of a list. -/
def slice {α : Type} (l : List α) (i j : Nat) : List α := (l.drop i).take (j - i)

/-- Specification: `l[i:j]` is a maximal run of `p`-elements of `l`: it is not empty, all
its elements satisfy `p`, and it is bounded on each side by an element that does not
satisfy `p` or by an end of `l`. -/
def IsMaximalRun {α : Type} (p : α → Bool) (l : List α) (i j : Nat) : Prop :=
  i < j ∧ j ≤ l.length ∧
  (∀ k, i ≤ k → k < j → ∃ x, l[k]? = some x ∧ p x = true) ∧
  (i = 0 ∨ ∃ x, l[i - 1]? = some x ∧ p x = false) ∧
  (j = l.length ∨ ∃ x, l[j]? = some x ∧ p x = false)

/-- The runes of the alphabet `superSet`: those whose string is a key with value `true`. -/
def inAlphabet (superSet : StringBoolMap) (c : Rune) : Bool :=
  mapGet superSet (runeToString c)

/-- The positions `(start, end)` of the runs of `p`-elements met by a left-to-right scan
of `cs`, empty runs included; the scan is at position `k` and the run being read began at
`start`. -/
def spansAux {α : Type} (p : α → Bool) : Nat → Nat → List α → List (Nat × Nat)
  | start, k, [] => [(start, k)]
  | start, k, c :: cs =>
    if p c then spansAux p start (k + 1) cs else (start, k) :: spansAux p (k + 1) (k + 1) cs

/-- A run in the wide sense: as `IsMaximalRun`, but possibly empty. -/
def IsRun {α : Type} (p : α → Bool) (l : List α) (i j : Nat) : Prop :=
  i ≤ j ∧ j ≤ l.length ∧
  (∀ k, i ≤ k → k < j → ∃ x, l[k]? = some x ∧ p x = true) ∧
  (i = 0 ∨ ∃ x, l[i - 1]? = some x ∧ p x = false) ∧
  (j = l.length ∨ ∃ x, l[j]? = some x ∧ p x = false)

/-- Specification: the Shannon entropy of `s` in bits per symbol, minus the sum over the
distinct bytes `c` of `s` of `f c * log2 (f c)`, where `f c` is the number of occurrences
of `c` in `s` divided by the length of `s`. -/
noncomputable def shannonEntropy (s : GoString) : ℝ :=
  - Finset.sum s.toFinset
      (fun c => ((s.count c : ℝ) / s.length) * Real.logb 2 ((s.count c : ℝ) / s.length))

/-- An exact test, in integer arithmetic, of whether the Shannon entropy of `s` over the
symbols of `BASE64_CHARS` exceeds `4.5 = 9/2`: with `N` the length of `s`, `n c` the number of
occurrences of the symbol `c` and `M` the sum of the `n c`, the entropy is
`(M * log2 N - Σ n c * log2 (n c)) / N`, which exceeds `9/2` exactly when
`2 ^ (9 * N) * Π (n c) ^ (2 * n c) < N ^ (2 * M)`. -/
def entropyAboveThreshold (s : GoString) : Bool :=
  decide (2 ^ (9 * s.length) * (BASE64_CHARS.map (fun b => s.count b ^ (2 * s.count b))).prod
    < s.length ^ (2 * (BASE64_CHARS.map (fun b => s.count b)).sum))

/-- The method `getEntropyCandidatesWithinWord` with its initial early return
`if len(word) < minCandidateLength { return candidates }` removed. -/
def getEntropyCandidatesWithinWordNoGuard (word : GoString) (minCandidateLength : Int)
    (superSet : StringBoolMap) : List GoString :=
  let st := (rangeRunes word).foldl (scanStep minCandidateLength superSet) ⟨[], 0, []⟩
  if st.count > minCandidateLength then st.candidates ++ [st.subSet] else st.candidates

/-- The loop of `getEntropyCandidatesWithinWord` and its final emission, over the runes of
the word. -/
def scanCandidates (minCandidateLength : Int) (superSet : StringBoolMap) (l : List Rune) :
    List GoString :=
  let st := l.foldl (scanStep minCandidateLength superSet) ⟨[], 0, []⟩
  if st.count > minCandidateLength then st.candidates ++ [st.subSet] else st.candidates

/-- The rune that the bytes of `string(c)` decode to: `c` itself, or `U+FFFD` when `c` is a
surrogate or above `U+10FFFF`. -/
def canonicalRune (c : Rune) : Rune :=
  if 0x10FFFF < c ∨ (0xD800 ≤ c ∧ c ≤ 0xDFFF) then RuneError else c

/-! ## Lists and slices -/

theorem forall_mem_of_all {α : Type} (p : α → Prop) [DecidablePred p] (l : List α)
    (h : l.all (fun b => decide (p b)) = true) : ∀ b ∈ l, p b := by
  intro b hb
  exact of_decide_eq_true (List.all_eq_true.1 h b hb)

theorem drop_succ_of_drop_eq_cons {α : Type} {l : List α} {k : Nat} {c : α} {cs : List α}
    (h : l.drop k = c :: cs) : l.drop (k + 1) = cs := by
  have := congrArg List.tail h
  simpa [List.tail_drop] using this

theorem getElem?_of_drop_eq_cons {α : Type} {l : List α} {k : Nat} {c : α} {cs : List α}
    (h : l.drop k = c :: cs) : l[k]? = some c := by
  have := congrArg (fun t => t[0]?) h
  simpa [List.getElem?_drop] using this

theorem lt_length_of_drop_eq_cons {α : Type} {l : List α} {k : Nat} {c : α} {cs : List α}
    (h : l.drop k = c :: cs) : k < l.length := by
  by_contra hk
  rw [List.drop_of_length_le (by omega)] at h
  exact List.noConfusion h

theorem slice_self {α : Type} (l : List α) (k : Nat) : slice l k k = [] := by
  simp [slice]

theorem slice_succ {α : Type} {l : List α} {k : Nat} {c : α} {cs : List α}
    (h : l.drop k = c :: cs) {start : Nat} (hs : start ≤ k) :
    slice l start (k + 1) = slice l start k ++ [c] := by
  have hk := lt_length_of_drop_eq_cons h
  have hc := getElem?_of_drop_eq_cons h
  unfold slice
  have e : k + 1 - start = (k - start) + 1 := by omega
  rw [e, List.take_succ]
  congr 1
  rw [List.getElem?_drop]
  have : start + (k - start) = k := by omega
  rw [this, hc]
  rfl

theorem length_slice {α : Type} (l : List α) {i j : Nat} (hj : j ≤ l.length) :
    (slice l i j).length = j - i := by
  simp [slice]
  omega

/-! ## The scan of `getEntropyCandidatesWithinWord` -/

theorem scan_spans (minLen : Int) (superSet : StringBoolMap) (l : List Rune) :
    ∀ (cs : List Rune) (st : ScanState) (start k : Nat), l.drop k = cs → start ≤ k →
      st.count = (k : Int) - start → st.subSet = runesToString (slice l start k) →
      (if (cs.foldl (scanStep minLen superSet) st).count > minLen then
          (cs.foldl (scanStep minLen superSet) st).candidates
            ++ [(cs.foldl (scanStep minLen superSet) st).subSet]
        else (cs.foldl (scanStep minLen superSet) st).candidates)
      = st.candidates ++
          ((spansAux (inAlphabet superSet) start k cs).filter
            (fun s => decide (minLen < (s.2 : Int) - s.1))).map
            (fun s => runesToString (slice l s.1 s.2)) := by
  intro cs
  induction cs with
  | nil =>
    intro st start k _ _ hc hs
    simp only [List.foldl_nil, spansAux, List.filter_cons, List.filter_nil]
    by_cases h : st.count > minLen
    · have h2 : minLen < (k : Int) - start := by rw [← hc]; exact h
      simp [h, h2, hs]
    · have h2 : ¬ minLen < (k : Int) - start := by rw [← hc]; exact h
      simp [h, h2]
  | cons c cs ih =>
    intro st start k hd hsk hc hs
    have hd1 := drop_succ_of_drop_eq_cons hd
    simp only [List.foldl_cons, spansAux]
    by_cases hp : inAlphabet superSet c = true
    · have hstep : scanStep minLen superSet st c
          = { st with subSet := st.subSet ++ runeToString c, count := st.count + 1 } := by
        unfold scanStep
        unfold inAlphabet at hp
        simp [hp]
      rw [hstep, if_pos hp]
      rw [ih _ start (k + 1) hd1 (by omega) (by simp [hc]; omega)
        (by simp [hs, slice_succ hd hsk, runesToString])]
    · have hstep : scanStep minLen superSet st c
          = { candidates :=
                if st.count > minLen then st.candidates ++ [st.subSet] else st.candidates
              count := 0
              subSet := [] } := by
        unfold scanStep
        unfold inAlphabet at hp
        simp [hp]
      rw [hstep, if_neg hp]
      rw [ih _ (k + 1) (k + 1) hd1 (le_refl _) (by simp)
        (by simp [slice_self, runesToString])]
      simp only [List.filter_cons]
      by_cases h : st.count > minLen
      · have h2 : minLen < (k : Int) - start := by rw [← hc]; exact h
        simp [h, h2, hs]
      · have h2 : ¬ minLen < (k : Int) - start := by rw [← hc]; exact h
        simp [h, h2]

theorem spansAux_lower {α : Type} (p : α → Bool) :
    ∀ (cs : List α) (start k : Nat), start ≤ k →
      ∀ s ∈ spansAux p start k cs, start ≤ s.1 ∧ k ≤ s.2 := by
  intro cs
  induction cs with
  | nil =>
    intro start k hsk s hs
    simp only [spansAux, List.mem_singleton] at hs
    subst hs
    exact ⟨le_refl _, le_refl _⟩
  | cons c cs ih =>
    intro start k hsk s hs
    simp only [spansAux] at hs
    split at hs
    · have := ih start (k + 1) (by omega) s hs
      omega
    · rcases List.mem_cons.1 hs with h | h
      · subst h
        exact ⟨le_refl _, le_refl _⟩
      · have := ih (k + 1) (k + 1) (le_refl _) s h
        omega

theorem spansAux_pairwise {α : Type} (p : α → Bool) :
    ∀ (cs : List α) (start k : Nat), start ≤ k →
      (spansAux p start k cs).Pairwise (fun a b => a.2 < b.1) := by
  intro cs
  induction cs with
  | nil =>
    intro start k _
    simp [spansAux]
  | cons c cs ih =>
    intro start k hsk
    simp only [spansAux]
    split
    · exact ih start (k + 1) (by omega)
    · refine List.pairwise_cons.2 ⟨?_, ih (k + 1) (k + 1) (le_refl _)⟩
      intro s hs
      have := spansAux_lower p cs (k + 1) (k + 1) (le_refl _) s hs
      show k < s.1
      omega

theorem spansAux_sound {α : Type} (p : α → Bool) (l : List α) :
    ∀ (cs : List α) (start k : Nat), l.drop k = cs → start ≤ k → k ≤ l.length →
      (∀ m, start ≤ m → m < k → ∃ x, l[m]? = some x ∧ p x = true) →
      (start = 0 ∨ ∃ x, l[start - 1]? = some x ∧ p x = false) →
      ∀ s ∈ spansAux p start k cs, IsRun p l s.1 s.2 := by
  intro cs
  induction cs with
  | nil =>
    intro start k hd hsk hkl hall hleft s hs
    simp only [spansAux, List.mem_singleton] at hs
    subst hs
    have hlen : l.length ≤ k := List.drop_eq_nil_iff.1 hd
    exact ⟨hsk, hkl, hall, hleft, Or.inl (by simp only; omega)⟩
  | cons c cs ih =>
    intro start k hd hsk hkl hall hleft s hs
    have hd1 := drop_succ_of_drop_eq_cons hd
    have hk := lt_length_of_drop_eq_cons hd
    have hc := getElem?_of_drop_eq_cons hd
    simp only [spansAux] at hs
    by_cases hp : p c = true
    · rw [if_pos hp] at hs
      refine ih start (k + 1) hd1 (by omega) (by omega) ?_ hleft s hs
      intro m hm1 hm2
      by_cases hmk : m = k
      · subst hmk
        exact ⟨c, hc, hp⟩
      · exact hall m hm1 (by omega)
    · rw [if_neg hp] at hs
      have hpf : p c = false := by simpa using hp
      rcases List.mem_cons.1 hs with h | h
      · subst h
        exact ⟨hsk, by simp only; omega, hall, hleft, Or.inr ⟨c, hc, hpf⟩⟩
      · refine ih (k + 1) (k + 1) hd1 (le_refl _) (by omega) ?_ ?_ s h
        · intro m hm1 hm2
          omega
        · exact Or.inr ⟨c, by simpa using hc, hpf⟩

theorem spansAux_complete {α : Type} (p : α → Bool) (l : List α) :
    ∀ (cs : List α) (start k : Nat), l.drop k = cs → start ≤ k → k ≤ l.length →
      (∀ m, start ≤ m → m < k → ∃ x, l[m]? = some x ∧ p x = true) →
      ∀ i j, IsRun p l i j → start ≤ i → (i, j) ∈ spansAux p start k cs := by
  intro cs
  induction cs with
  | nil =>
    intro start k hd hsk hkl hall i j hrun hi
    obtain ⟨hij, hjl, _, hleft, hright⟩ := hrun
    have hlen : l.length ≤ k := List.drop_eq_nil_iff.1 hd
    have hi' : i = start := by
      by_contra hne
      rcases hleft with h0 | ⟨x, hx, hpx⟩
      · omega
      · obtain ⟨y, hy, hpy⟩ := hall (i - 1) (by omega) (by omega)
        rw [hx] at hy
        cases hy
        rw [hpx] at hpy
        exact Bool.noConfusion hpy
    have hj' : j = k := by
      rcases hright with h0 | ⟨x, hx, hpx⟩
      · omega
      · obtain ⟨y, hy, hpy⟩ := hall j (by omega) (by
          have := (List.getElem?_eq_some_iff.1 hx).1
          omega)
        rw [hx] at hy
        cases hy
        rw [hpx] at hpy
        exact Bool.noConfusion hpy
    subst hi' hj'
    simp [spansAux]
  | cons c cs ih =>
    intro start k hd hsk hkl hall i j hrun hi
    have hd1 := drop_succ_of_drop_eq_cons hd
    have hk := lt_length_of_drop_eq_cons hd
    have hc := getElem?_of_drop_eq_cons hd
    simp only [spansAux]
    by_cases hp : p c = true
    · rw [if_pos hp]
      refine ih start (k + 1) hd1 (by omega) (by omega) ?_ i j hrun hi
      intro m hm1 hm2
      by_cases hmk : m = k
      · subst hmk
        exact ⟨c, hc, hp⟩
      · exact hall m hm1 (by omega)
    · rw [if_neg hp]
      have hpf : p c = false := by simpa using hp
      by_cases hik : i ≤ k
      · obtain ⟨hij, hjl, hin, hleft, hright⟩ := hrun
        have hi' : i = start := by
          by_contra hne
          rcases hleft with h0 | ⟨x, hx, hpx⟩
          · omega
          · obtain ⟨y, hy, hpy⟩ := hall (i - 1) (by omega) (by omega)
            rw [hx] at hy
            cases hy
            rw [hpx] at hpy
            exact Bool.noConfusion hpy
        have hjk : j ≤ k := by
          by_contra hgt
          obtain ⟨y, hy, hpy⟩ := hin k hik (by omega)
          rw [hc] at hy
          cases hy
          rw [hpf] at hpy
          exact Bool.noConfusion hpy
        have hj' : j = k := by
          by_contra hne
          rcases hright with h0 | ⟨x, hx, hpx⟩
          · omega
          · obtain ⟨y, hy, hpy⟩ := hall j (by omega) (by omega)
            rw [hx] at hy
            cases hy
            rw [hpx] at hpy
            exact Bool.noConfusion hpy
        subst hi' hj'
        exact List.mem_cons_self _ _
      · refine List.mem_cons_of_mem _ (ih (k + 1) (k + 1) hd1 (le_refl _) (by omega) ?_
          i j hrun (by omega))
        intro m hm1 hm2
        omega

theorem rangeRunesAux_length_le :
    ∀ (s : GoString) (k : Nat), (rangeRunesAux k s).length ≤ s.length := by
  intro s
  induction s with
  | nil => intro k; simp [rangeRunesAux]
  | cons b t ih =>
    intro k
    cases k with
    | zero =>
      simp only [rangeRunesAux, List.length_cons]
      have := ih ((decodeRune (b :: t)).2 - 1)
      omega
    | succ k =>
      simp only [rangeRunesAux, List.length_cons]
      have := ih k
      omega

theorem rangeRunes_length_le (s : GoString) : (rangeRunes s).length ≤ s.length :=
  rangeRunesAux_length_le s 0

/-- The candidates, without the fast rejection, are the runs of the whole scan that are
long enough. -/
theorem scan_eq_spans (word : GoString) (minLen : Int) (superSet : StringBoolMap) :
    (if ((rangeRunes word).foldl (scanStep minLen superSet) ⟨[], 0, []⟩).count > minLen then
        ((rangeRunes word).foldl (scanStep minLen superSet) ⟨[], 0, []⟩).candidates
          ++ [((rangeRunes word).foldl (scanStep minLen superSet) ⟨[], 0, []⟩).subSet]
      else ((rangeRunes word).foldl (scanStep minLen superSet) ⟨[], 0, []⟩).candidates)
    = ((spansAux (inAlphabet superSet) 0 0 (rangeRunes word)).filter
        (fun s => decide (minLen < (s.2 : Int) - s.1))).map
        (fun s => runesToString (slice (rangeRunes word) s.1 s.2)) := by
  have := scan_spans minLen superSet (rangeRunes word) (rangeRunes word) ⟨[], 0, []⟩ 0 0
    (by simp) (le_refl _) (by simp) (by simp [slice, runesToString])
  simpa using this

theorem spans_isRun_iff {α : Type} (p : α → Bool) (l : List α) (i j : Nat) :
    (i, j) ∈ spansAux p 0 0 l ↔ IsRun p l i j := by
  constructor
  · intro h
    exact spansAux_sound p l l 0 0 (by simp) (le_refl _) (Nat.zero_le _)
      (fun m _ hm => absurd hm (Nat.not_lt_zero m)) (Or.inl rfl) (i, j) h
  · intro h
    exact spansAux_complete p l l 0 0 (by simp) (le_refl _) (Nat.zero_le _)
      (fun m _ hm => absurd hm (Nat.not_lt_zero m)) i j h (Nat.zero_le _)

/-- The fast rejection `len(word) < minCandidateLength` changes nothing: a word it
rejects has no run long enough. -/
theorem getEntropyCandidatesWithinWord_eq_spans (word : GoString) (minLen : Int)
    (superSet : StringBoolMap) :
    getEntropyCandidatesWithinWord word minLen superSet
    = ((spansAux (inAlphabet superSet) 0 0 (rangeRunes word)).filter
        (fun s => decide (minLen < (s.2 : Int) - s.1))).map
        (fun s => runesToString (slice (rangeRunes word) s.1 s.2)) := by
  unfold getEntropyCandidatesWithinWord
  by_cases hg : (word.length : Int) < minLen
  · rw [if_pos hg]
    symm
    rw [List.map_eq_nil_iff, List.filter_eq_nil_iff]
    rintro ⟨i, j⟩ hs
    have hrun := (spans_isRun_iff _ _ i j).1 hs
    have h1 := hrun.2.1
    have h2 := rangeRunes_length_le word
    simp only [decide_eq_true_eq, not_lt]
    omega
  · rw [if_neg hg]
    exact scan_eq_spans word minLen superSet

theorem decodeRune_ascii (b : Byte) (t : GoString) (hb : b.val < 0x80) :
    decodeRune (b :: t) = (b.val, 1) := by
  simp [decodeRune, hb]

theorem rangeRunes_ascii (s : GoString) (h : ∀ b ∈ s, b.val < 0x80) :
    rangeRunes s = s.map (fun b => b.val) := by
  unfold rangeRunes
  induction s with
  | nil => rfl
  | cons b t ih =>
    have hb := h b (List.mem_cons_self _ _)
    simp only [rangeRunesAux, decodeRune_ascii b t hb, List.map_cons]
    rw [ih (fun x hx => h x (List.mem_cons_of_mem _ hx))]

theorem runeToString_ascii (b : Byte) (hb : b.val < 0x80) : runeToString b.val = [b] := by
  have h1 : b.val ≤ 0x7F := by omega
  unfold runeToString
  rw [if_pos h1]
  congr 1
  apply Fin.ext
  simp [Fin.ofNat]

theorem runesToString_ascii (s : GoString) (h : ∀ b ∈ s, b.val < 0x80) :
    runesToString (s.map (fun b => b.val)) = s := by
  unfold runesToString
  induction s with
  | nil => rfl
  | cons b t ih =>
    have hb := h b (List.mem_cons_self _ _)
    simp only [List.map_cons, List.flatMap_cons, runeToString_ascii b hb]
    rw [ih (fun x hx => h x (List.mem_cons_of_mem _ hx))]
    rfl

theorem runeToString_length_pos (r : Rune) : 1 ≤ (runeToString r).length := by
  unfold runeToString
  split_ifs <;> simp

theorem runeToString_singleton (r : Nat) (b : Byte) (h : runeToString r = [b]) :
    r = b.val ∧ b.val < 0x80 := by
  unfold runeToString at h
  split_ifs at h with h1
  · have h1' : r ≤ 127 := h1
    simp only [List.cons.injEq, and_true] at h
    subst h
    simp only [Fin.ofNat, Nat.reduceAdd]
    omega
  all_goals simp at h

set_option maxRecDepth 100000 in
theorem BASE64_CHARS_ascii : ∀ b ∈ BASE64_CHARS, b.val < 0x80 :=
  forall_mem_of_all _ _ (by decide)

set_option maxRecDepth 100000 in
theorem BASE64_CHARS_nodup : BASE64_CHARS.Nodup := by decide

set_option maxRecDepth 100000 in
theorem initBase64Map_eq : initBase64Map = BASE64_CHARS.map (fun b => ([b], true)) := by
  decide

theorem mapGet_singletons (l : List Byte) (k : GoString) :
    mapGet (l.map (fun b => ([b], true))) k = true ↔ ∃ b ∈ l, k = [b] := by
  unfold mapGet
  induction l with
  | nil => simp
  | cons a t ih =>
    simp only [List.map_cons, List.lookup_cons]
    by_cases hk : k = [a]
    · subst hk
      simp
    · have : (k == [a]) = false := by simpa using hk
      rw [this]
      simp only [List.mem_cons, exists_eq_or_imp, hk, false_or]
      exact ih

theorem mapGet_initBase64Map (k : GoString) :
    mapGet initBase64Map k = true ↔ ∃ b ∈ BASE64_CHARS, k = [b] := by
  rw [initBase64Map_eq]
  exact mapGet_singletons _ _

theorem inAlphabet_initBase64Map (r : Rune) :
    inAlphabet initBase64Map r = true ↔ ∃ b ∈ BASE64_CHARS, r = b.val := by
  unfold inAlphabet
  rw [mapGet_initBase64Map]
  constructor
  · rintro ⟨b, hb, h⟩
    exact ⟨b, hb, (runeToString_singleton r b h).1⟩
  · rintro ⟨b, hb, h⟩
    subst h
    exact ⟨b, hb, runeToString_ascii b (BASE64_CHARS_ascii b hb)⟩

theorem spansAux_all {α : Type} (p : α → Bool) :
    ∀ (cs : List α) (start k : Nat), (∀ c ∈ cs, p c = true) →
      spansAux p start k cs = [(start, k + cs.length)] := by
  intro cs
  induction cs with
  | nil => intro start k _; simp [spansAux]
  | cons c cs ih =>
    intro start k h
    simp only [spansAux, h c (List.mem_cons_self _ _), if_true, List.length_cons]
    rw [ih start (k + 1) (fun x hx => h x (List.mem_cons_of_mem _ hx))]
    congr 2
    omega

theorem mem_slice_of_isRun {α : Type} (p : α → Bool) (l : List α) (i j : Nat)
    (h : IsRun p l i j) : ∀ x ∈ slice l i j, p x = true := by
  intro x hx
  obtain ⟨n, hn⟩ := List.mem_iff_getElem?.1 hx
  unfold slice at hn
  rw [List.getElem?_take] at hn
  split at hn
  · rename_i hlt
    rw [List.getElem?_drop] at hn
    obtain ⟨y, hy, hpy⟩ := h.2.2.1 (i + n) (by omega) (by omega)
    rw [hy] at hn
    cases hn
    exact hpy
  · exact Option.noConfusion hn

theorem runesToString_length_ge (run : List Rune) :
    run.length ≤ (runesToString run).length := by
  unfold runesToString
  induction run with
  | nil => simp
  | cons r t ih =>
    have := runeToString_length_pos r
    simp only [List.flatMap_cons, List.length_append, List.length_cons]
    omega

theorem candidates_nil_of_short (word : GoString) (minLen : Int) (superSet : StringBoolMap)
    (h : ((rangeRunes word).length : Int) ≤ minLen) :
    getEntropyCandidatesWithinWord word minLen superSet = [] := by
  rw [getEntropyCandidatesWithinWord_eq_spans, List.map_eq_nil_iff, List.filter_eq_nil_iff]
  rintro ⟨i, j⟩ hs
  have hrun := (spans_isRun_iff _ _ i j).1 hs
  have h1 := hrun.2.1
  simp only [decide_eq_true_eq, not_lt]
  omega

theorem candidates_of_alphabet_word (word : GoString) (minLen : Int)
    (superSet : StringBoolMap)
    (h : ∀ b ∈ word, b.val < 0x80 ∧ mapGet superSet [b] = true) :
    getEntropyCandidatesWithinWord word minLen superSet
      = if minLen < (word.length : Int) then [word] else [] := by
  have hascii : ∀ b ∈ word, b.val < 0x80 := fun b hb => (h b hb).1
  have hall : ∀ c ∈ rangeRunes word, inAlphabet superSet c = true := by
    rw [rangeRunes_ascii word hascii]
    intro c hc
    obtain ⟨b, hb, rfl⟩ := List.mem_map.1 hc
    unfold inAlphabet
    rw [runeToString_ascii b (h b hb).1]
    exact (h b hb).2
  rw [getEntropyCandidatesWithinWord_eq_spans, spansAux_all _ _ 0 0 hall]
  have hlen : (rangeRunes word).length = word.length := by
    rw [rangeRunes_ascii word hascii, List.length_map]
  simp only [List.filter_cons, List.filter_nil, Nat.zero_add, hlen]
  by_cases hm : minLen < (word.length : Int)
  · have : slice (rangeRunes word) 0 word.length = rangeRunes word := by
      unfold slice
      rw [List.drop_zero, Nat.sub_zero, ← hlen, List.take_length]
    simp [hm, this]
    rw [rangeRunes_ascii word hascii, runesToString_ascii word hascii]
  · simp [hm]

theorem mem_candidates (word : GoString) (minLen : Int) (superSet : StringBoolMap)
    (cand : GoString) (h : cand ∈ getEntropyCandidatesWithinWord word minLen superSet) :
    ∃ run : List Rune, cand = runesToString run ∧
      (∀ c ∈ run, inAlphabet superSet c = true) ∧ minLen < (run.length : Int) := by
  rw [getEntropyCandidatesWithinWord_eq_spans] at h
  obtain ⟨⟨i, j⟩, hs, rfl⟩ := List.mem_map.1 h
  obtain ⟨hs1, hs2⟩ := List.mem_filter.1 hs
  have hrun := (spans_isRun_iff _ _ i j).1 hs1
  refine ⟨slice (rangeRunes word) i j, rfl, mem_slice_of_isRun _ _ i j hrun, ?_⟩
  rw [length_slice _ hrun.2.1]
  have := hrun.1
  simp only [decide_eq_true_eq] at hs2
  omega

/-! ## The classifier and the scanner -/

theorem checkBase64EncodingLoop_eq_some {F : Type} (A : FloatOps F) (word : GoString)
    (cands : List GoString)
    (h : ∃ c ∈ cands, A.gt (getShannonEntropy A c BASE64_CHARS)
      (A.const BASE64_ENTROPY_THRESHOLD) = true) :
    checkBase64EncodingLoop A word cands = some word := by
  induction cands with
  | nil => simp at h
  | cons c cs ih =>
    simp only [checkBase64EncodingLoop]
    by_cases hc : A.gt (getShannonEntropy A c BASE64_CHARS)
        (A.const BASE64_ENTROPY_THRESHOLD) = true
    · rw [if_pos hc]
    · rw [if_neg hc]
      apply ih
      obtain ⟨c', hc', hgt⟩ := h
      rcases List.mem_cons.1 hc' with rfl | hmem
      · exact absurd hgt hc
      · exact ⟨c', hmem, hgt⟩

theorem checkBase64EncodingLoop_eq_none {F : Type} (A : FloatOps F) (word : GoString)
    (cands : List GoString)
    (h : ¬ ∃ c ∈ cands, A.gt (getShannonEntropy A c BASE64_CHARS)
      (A.const BASE64_ENTROPY_THRESHOLD) = true) :
    checkBase64EncodingLoop A word cands = none := by
  induction cands with
  | nil => rfl
  | cons c cs ih =>
    simp only [checkBase64EncodingLoop]
    have hc : ¬ A.gt (getShannonEntropy A c BASE64_CHARS)
        (A.const BASE64_ENTROPY_THRESHOLD) = true :=
      fun hgt => h ⟨c, List.mem_cons_self _ _, hgt⟩
    rw [if_neg hc]
    exact ih (fun ⟨c', hc', hgt⟩ => h ⟨c', List.mem_cons_of_mem _ hc', hgt⟩)

theorem word_ne_nil_of_candidate (word : GoString) (superSet : StringBoolMap)
    (h : getEntropyCandidatesWithinWord word MIN_SECRET_LENGTH superSet ≠ []) :
    word ≠ [] := by
  rintro rfl
  exact h (candidates_nil_of_short [] _ _ (by simp [rangeRunes, rangeRunesAux, MIN_SECRET_LENGTH]))

theorem checkEachWordLoop_eq_nil_iff {F : Type} (A : FloatOps F) (fc : FileContentDetector)
    (words : List GoString) :
    checkEachWordLoop A fc words = [] ↔ ∀ w ∈ words, checkBase64Encoding A fc w = [] := by
  induction words with
  | nil => simp [checkEachWordLoop]
  | cons w ws ih =>
    simp only [checkEachWordLoop, List.mem_cons, forall_eq_or_imp]
    by_cases hw : checkBase64Encoding A fc w = []
    · simp [hw, ih]
    · simp [hw]

theorem checkEachWordLoop_first {F : Type} (A : FloatOps F) (fc : FileContentDetector)
    (before after : List GoString) (word : GoString)
    (hb : ∀ w ∈ before, checkBase64Encoding A fc w = [])
    (hw : checkBase64Encoding A fc word ≠ []) :
    checkEachWordLoop A fc (before ++ word :: after) = checkBase64Encoding A fc word := by
  induction before with
  | nil => simp [checkEachWordLoop, hw]
  | cons w ws ih =>
    have h1 := hb w (List.mem_cons_self _ _)
    simp only [List.cons_append, checkEachWordLoop, h1, ne_eq, not_true_eq_false, if_false]
    exact ih (fun x hx => hb x (List.mem_cons_of_mem _ hx))

theorem checkEachLineLoop_eq_nil_iff {F : Type} (A : FloatOps F) (fc : FileContentDetector)
    (lines : List GoString) :
    checkEachLineLoop A fc lines = [] ↔ ∀ l ∈ lines, checkEachWord A fc l = [] := by
  induction lines with
  | nil => simp [checkEachLineLoop]
  | cons l ls ih =>
    simp only [checkEachLineLoop, List.mem_cons, forall_eq_or_imp]
    by_cases hl : checkEachWord A fc l = []
    · simp [hl, ih]
    · simp [hl]

theorem checkEachLineLoop_first {F : Type} (A : FloatOps F) (fc : FileContentDetector)
    (pre post : List GoString) (line : GoString)
    (hp : ∀ l ∈ pre, checkEachWord A fc l = [])
    (hl : checkEachWord A fc line ≠ []) :
    checkEachLineLoop A fc (pre ++ line :: post) = checkEachWord A fc line := by
  induction pre with
  | nil => simp [checkEachLineLoop, hl]
  | cons l ls ih =>
    have h1 := hp l (List.mem_cons_self _ _)
    simp only [List.cons_append, checkEachLineLoop, h1, ne_eq, not_true_eq_false, if_false]
    exact ih (fun x hx => hp x (List.mem_cons_of_mem _ hx))

theorem stringsFieldsAux_ne_nil :
    ∀ (s : GoString) (k : Nat) (keep : Bool) (cur : GoString),
      ∀ w ∈ stringsFieldsAux k keep cur s, w ≠ [] := by
  intro s
  induction s with
  | nil =>
    intro k keep cur w hw
    simp only [stringsFieldsAux] at hw
    split at hw
    · simp at hw
    · simp only [List.mem_singleton] at hw
      subst hw
      assumption
  | cons b t ih =>
    intro k keep cur w hw
    cases k with
    | zero =>
      simp only [stringsFieldsAux] at hw
      split at hw
      · split at hw
        · exact ih _ _ _ w hw
        · rcases List.mem_cons.1 hw with h | h
          · subst h
            assumption
          · exact ih _ _ _ w h
      · exact ih _ _ _ w hw
    | succ k =>
      simp only [stringsFieldsAux] at hw
      split at hw
      · exact ih _ _ _ w hw
      · exact ih _ _ _ w hw

theorem Test_eq_append {F : Type} (A : FloatOps F) (fc : FileContentDetector)
    (ignores : Addition → Bool) (additions : List Addition) :
    ∀ result : DetectionResults,
      Test A fc additions ignores result
        = result ++ additions.flatMap (testAddition A fc ignores []) := by
  unfold Test
  induction additions with
  | nil => intro result; simp
  | cons a as ih =>
    intro result
    simp only [List.foldl_cons, List.flatMap_cons]
    rw [ih]
    have : testAddition A fc ignores result a = result ++ testAddition A fc ignores [] a := by
      unfold testAddition
      by_cases hi : ignores a = true
      · simp [hi]
      · by_cases hs : checkBase64EncodingForFile A fc a.Data = []
        · simp [hi, hs]
        · simp [hi, hs]
    rw [this, List.append_assoc]

/-! ## The entropy over the real numbers -/

theorem foldl_sub_ite {β : Type} (g : β → Prop) [DecidablePred g] (t : β → ℝ) (L : List β) :
    ∀ e0 : ℝ, L.foldl (fun e c => if g c then e - t c else e) e0
      = e0 - (L.map (fun c => if g c then t c else 0)).sum := by
  induction L with
  | nil => intro e0; simp
  | cons c cs ih =>
    intro e0
    simp only [List.foldl_cons, List.map_cons, List.sum_cons]
    rw [ih]
    split_ifs <;> ring

theorem stringsCountAux_singleton (b : Byte) (s : GoString) :
    stringsCountAux [b] 0 s = s.count b := by
  induction s with
  | nil => rfl
  | cons x t ih =>
    simp only [stringsCountAux, List.isPrefixOf, List.length_singleton, Nat.sub_self]
    rw [ih, List.count_cons]
    by_cases hx : b = x
    · subst hx
      simp
      omega
    · have h1 : (b == x) = false := by simpa using hx
      have h2 : (x == b) = false := by simpa using fun h => hx h.symm
      simp [h1, h2]

theorem stringsCount_singleton (b : Byte) (s : GoString) :
    stringsCount s [b] = (s.count b : Int) := by
  unfold stringsCount
  rw [if_neg (by simp), stringsCountAux_singleton]

/-- The entropy computed over the reals, as a sum over the bytes of `BASE64_CHARS`. -/
theorem getShannonEntropy_real (s : GoString) (hs : s ≠ []) :
    getShannonEntropy realOps s BASE64_CHARS
      = - (BASE64_CHARS.map (fun b =>
          if 0 < (s.count b : ℝ) / s.length then
            ((s.count b : ℝ) / s.length) * Real.logb 2 ((s.count b : ℝ) / s.length)
          else 0)).sum := by
  unfold getShannonEntropy
  rw [if_neg hs, rangeRunes_ascii _ BASE64_CHARS_ascii, List.foldl_map]
  have hstep : ∀ (e : ℝ) (b : Byte), b ∈ BASE64_CHARS →
      (if realOps.gt (realOps.div (realOps.ofInt (stringsCount s (runeToString b.val)))
            (realOps.ofInt s.length)) (realOps.const 0) = true then
          realOps.sub e (realOps.mul
            (realOps.div (realOps.ofInt (stringsCount s (runeToString b.val)))
              (realOps.ofInt s.length))
            (realOps.log2 (realOps.div (realOps.ofInt (stringsCount s (runeToString b.val)))
              (realOps.ofInt s.length))))
        else e)
      = (if 0 < (s.count b : ℝ) / s.length then
          e - ((s.count b : ℝ) / s.length) * Real.logb 2 ((s.count b : ℝ) / s.length)
        else e) := by
    intro e b hb
    rw [runeToString_ascii b (BASE64_CHARS_ascii b hb), stringsCount_singleton]
    simp [realOps]
  rw [List.foldl_ext _ _ _ hstep]
  rw [foldl_sub_ite]
  simp [realOps]

theorem getShannonEntropy_nil : getShannonEntropy realOps [] BASE64_CHARS = 0 := by
  simp [getShannonEntropy, realOps]

theorem getShannonEntropy_eq_shannonEntropy_aux (s : GoString)
    (h : ∀ b ∈ s, b ∈ BASE64_CHARS) :
    getShannonEntropy realOps s BASE64_CHARS = shannonEntropy s := by
  by_cases hs : s = []
  · subst hs
    rw [getShannonEntropy_nil]
    simp [shannonEntropy]
  · rw [getShannonEntropy_real s hs, shannonEntropy]
    congr 1
    rw [← List.sum_toFinset _ BASE64_CHARS_nodup]
    symm
    have hlen : (0 : ℝ) < s.length := by
      have : 0 < s.length := List.length_pos.2 hs
      exact_mod_cast this
    have hsub : s.toFinset ⊆ BASE64_CHARS.toFinset := by
      intro b hb
      rw [List.mem_toFinset] at hb ⊢
      exact h b hb
    rw [← Finset.sum_subset hsub]
    · apply Finset.sum_congr rfl
      intro b hb
      rw [List.mem_toFinset] at hb
      have hc : (0 : ℝ) < s.count b := by
        have : 0 < s.count b := List.count_pos_iff.2 hb
        exact_mod_cast this
      rw [if_pos (div_pos hc hlen)]
    · intro b _ hb
      rw [List.mem_toFinset] at hb
      have hc : s.count b = 0 := List.count_eq_zero.2 hb
      simp [hc]

theorem entropy_term (n N : ℕ) (hN : 0 < N) :
    (N : ℝ) * (if 0 < (n : ℝ) / N then ((n : ℝ) / N) * Real.logb 2 ((n : ℝ) / N) else 0)
      = n * Real.logb 2 n - n * Real.logb 2 N := by
  have hN' : (0 : ℝ) < N := by exact_mod_cast hN
  rcases Nat.eq_zero_or_pos n with h0 | hpos
  · subst h0
    simp
  · have hn' : (0 : ℝ) < n := by exact_mod_cast hpos
    rw [if_pos (div_pos hn' hN'), Real.logb_div hn'.ne' hN'.ne']
    field_simp
    ring

theorem entropy_sum (s : GoString) (L : List Byte) (hN : 0 < s.length) :
    (s.length : ℝ) * (L.map (fun b =>
        if 0 < (s.count b : ℝ) / s.length then
          ((s.count b : ℝ) / s.length) * Real.logb 2 ((s.count b : ℝ) / s.length)
        else 0)).sum
      = (L.map (fun b => (s.count b : ℝ) * Real.logb 2 (s.count b))).sum
        - ((L.map (fun b => s.count b)).sum : ℕ) * Real.logb 2 s.length := by
  induction L with
  | nil => simp
  | cons b t ih =>
    simp only [List.map_cons, List.sum_cons, mul_add, ih, entropy_term _ _ hN]
    push_cast
    ring

theorem pow_count_pos (n : ℕ) : (0 : ℝ) < (n : ℝ) ^ (2 * n) := by
  rcases Nat.eq_zero_or_pos n with h0 | hpos
  · subst h0
    simp
  · have hn' : (0 : ℝ) < n := by exact_mod_cast hpos
    exact pow_pos hn' _

theorem prod_count_pos (s : GoString) (L : List Byte) :
    (0 : ℝ) < (L.map (fun b => (s.count b : ℝ) ^ (2 * s.count b))).prod := by
  induction L with
  | nil => simp
  | cons b t ih =>
    simp only [List.map_cons, List.prod_cons]
    exact mul_pos (pow_count_pos _) ih

theorem logb_prod_count (s : GoString) (L : List Byte) :
    Real.logb 2 (L.map (fun b => (s.count b : ℝ) ^ (2 * s.count b))).prod
      = 2 * (L.map (fun b => (s.count b : ℝ) * Real.logb 2 (s.count b))).sum := by
  induction L with
  | nil => simp
  | cons b t ih =>
    simp only [List.map_cons, List.prod_cons, List.sum_cons]
    rw [Real.logb_mul (pow_count_pos _).ne' (prod_count_pos s t).ne', ih, Real.logb_pow]
    push_cast
    ring

theorem cast_prod_count (s : GoString) (L : List Byte) :
    (((L.map (fun b => s.count b ^ (2 * s.count b))).prod : ℕ) : ℝ)
      = (L.map (fun b => (s.count b : ℝ) ^ (2 * s.count b))).prod := by
  induction L with
  | nil => simp
  | cons b t ih =>
    simp only [List.map_cons, List.prod_cons, Nat.cast_mul, Nat.cast_pow, ih]

/-- Over the reals, the comparison of the entropy with the threshold `4.5` made by
`checkBase64Encoding` is decided by the integer test `entropyAboveThreshold`. -/
theorem entropy_gt_threshold_iff (s : GoString) :
    realOps.gt (getShannonEntropy realOps s BASE64_CHARS)
      (realOps.const BASE64_ENTROPY_THRESHOLD) = entropyAboveThreshold s := by
  have hthr : realOps.const BASE64_ENTROPY_THRESHOLD = (9 / 2 : ℝ) := by
    simp [realOps, BASE64_ENTROPY_THRESHOLD]
    norm_num
  rw [hthr]
  by_cases hs : s = []
  · subst hs
    rw [getShannonEntropy_nil]
    have h1 : realOps.gt 0 (9 / 2 : ℝ) = false := by
      simp [realOps]
      norm_num
    rw [h1]
    simp [entropyAboveThreshold]
  · have hN : 0 < s.length := List.length_pos.2 hs
    have hN' : (0 : ℝ) < s.length := by exact_mod_cast hN
    rw [Bool.eq_iff_iff]
    unfold entropyAboveThreshold
    have hgt : ∀ x y : ℝ, realOps.gt x y = true ↔ y < x := by
      intro x y
      simp [realOps]
    rw [hgt, decide_eq_true_eq, getShannonEntropy_real s hs]
    have hsum := entropy_sum s BASE64_CHARS hN
    set H := (BASE64_CHARS.map (fun b =>
        if 0 < (s.count b : ℝ) / s.length then
          ((s.count b : ℝ) / s.length) * Real.logb 2 ((s.count b : ℝ) / s.length)
        else 0)).sum with hH
    set S := (BASE64_CHARS.map (fun b => (s.count b : ℝ) * Real.logb 2 (s.count b))).sum
      with hS
    set M := (BASE64_CHARS.map (fun b => s.count b)).sum with hM
    have hlog2 : Real.logb 2 2 = 1 := Real.logb_self_eq_one (by norm_num)
    have hlhs : Real.logb 2 ((2 : ℝ) ^ (9 * s.length)
          * (BASE64_CHARS.map (fun b => (s.count b : ℝ) ^ (2 * s.count b))).prod)
        = 9 * s.length + 2 * S := by
      rw [Real.logb_mul (pow_pos (by norm_num) _).ne' (prod_count_pos s _).ne',
        logb_prod_count, Real.logb_pow, hlog2]
      push_cast
      ring
    have hrhs : Real.logb 2 ((s.length : ℝ) ^ (2 * M)) = 2 * M * Real.logb 2 s.length := by
      rw [Real.logb_pow]
      push_cast
      ring
    have hcast : (2 ^ (9 * s.length)
          * (BASE64_CHARS.map (fun b => s.count b ^ (2 * s.count b))).prod < s.length ^ (2 * M))
        ↔ ((2 : ℝ) ^ (9 * s.length)
          * (BASE64_CHARS.map (fun b => (s.count b : ℝ) ^ (2 * s.count b))).prod
            < (s.length : ℝ) ^ (2 * M)) := by
      rw [← cast_prod_count, ← Nat.cast_lt (α := ℝ)]
      push_cast
      rfl
    rw [hcast, ← Real.logb_lt_logb_iff (b := 2) (by norm_num)
      (mul_pos (pow_pos (by norm_num) _) (prod_count_pos s _)) (pow_pos hN' _), hlhs, hrhs]
    constructor
    · intro h
      nlinarith
    · intro h
      by_contra hcon
      push_neg at hcon
      nlinarith

theorem realOps_gt_iff (x y : ℝ) : realOps.gt x y = true ↔ y < x := by
  simp [realOps]

theorem checkBase64Encoding_of_hit {F : Type} (A : FloatOps F) (fc : FileContentDetector)
    (word : GoString)
    (h : ∃ c ∈ getEntropyCandidatesWithinWord word MIN_SECRET_LENGTH fc.base64Map,
      A.gt (getShannonEntropy A c BASE64_CHARS) (A.const BASE64_ENTROPY_THRESHOLD) = true) :
    checkBase64Encoding A fc word = word := by
  unfold checkBase64Encoding
  simp only [checkBase64EncodingLoop_eq_some A word _ h]

theorem checkBase64Encoding_of_no_hit {F : Type} (A : FloatOps F) (fc : FileContentDetector)
    (word : GoString)
    (h : ¬ ∃ c ∈ getEntropyCandidatesWithinWord word MIN_SECRET_LENGTH fc.base64Map,
      A.gt (getShannonEntropy A c BASE64_CHARS) (A.const BASE64_ENTROPY_THRESHOLD) = true) :
    checkBase64Encoding A fc word
      = match fc.aggressiveDetector with
        | some aggressiveTest => aggressiveTest word
        | none => [] := by
  unfold checkBase64Encoding
  simp only [checkBase64EncodingLoop_eq_none A word _ h]

/-- Over the reals, a word with a candidate that passes the integer test is returned. -/
theorem checkBase64Encoding_real_of_hit (fc : FileContentDetector) (word : GoString)
    (cands : List GoString)
    (hc : getEntropyCandidatesWithinWord word MIN_SECRET_LENGTH fc.base64Map = cands)
    (h : cands.any entropyAboveThreshold = true) :
    checkBase64Encoding realOps fc word = word := by
  apply checkBase64Encoding_of_hit
  rw [hc]
  obtain ⟨c, hmem, hgt⟩ := List.any_eq_true.1 h
  exact ⟨c, hmem, by rw [entropy_gt_threshold_iff]; exact hgt⟩

theorem word_ne_nil_of_hit {F : Type} (A : FloatOps F) (superSet : StringBoolMap)
    (word : GoString)
    (h : ∃ c ∈ getEntropyCandidatesWithinWord word MIN_SECRET_LENGTH superSet,
      A.gt (getShannonEntropy A c BASE64_CHARS) (A.const BASE64_ENTROPY_THRESHOLD) = true) :
    word ≠ [] := by
  obtain ⟨c, hc, _⟩ := h
  exact word_ne_nil_of_candidate word superSet (List.ne_nil_of_mem hc)

theorem checkEachLine_first {F : Type} (A : FloatOps F) (fc : FileContentDetector)
    (content : GoString) (pre post : List GoString) (line : GoString)
    (before after : List GoString) (word : GoString)
    (hsplit : stringsSplit content (lit "\n") = pre ++ line :: post)
    (hfields : stringsFields line = before ++ word :: after)
    (hpre : ∀ l ∈ pre, ∀ w ∈ stringsFields l, checkBase64Encoding A fc w = [])
    (hbefore : ∀ w ∈ before, checkBase64Encoding A fc w = [])
    (hword : checkBase64Encoding A fc word ≠ []) :
    checkEachLine A fc content = checkBase64Encoding A fc word := by
  unfold checkEachLine
  rw [hsplit]
  have hline : checkEachWord A fc line = checkBase64Encoding A fc word := by
    unfold checkEachWord
    rw [hfields]
    exact checkEachWordLoop_first A fc before after word hbefore hword
  rw [checkEachLineLoop_first A fc pre post line ?_ (by rw [hline]; exact hword), hline]
  intro l hl
  unfold checkEachWord
  exact (checkEachWordLoop_eq_nil_iff A fc _).2 (hpre l hl)

theorem checkEachLine_eq_nil_iff {F : Type} (A : FloatOps F) (fc : FileContentDetector)
    (content : GoString) :
    checkEachLine A fc content = [] ↔
      ∀ line ∈ stringsSplit content (lit "\n"), ∀ word ∈ stringsFields line,
        checkBase64Encoding A fc word = [] := by
  unfold checkEachLine
  rw [checkEachLineLoop_eq_nil_iff]
  constructor
  · intro h line hline
    exact (checkEachWordLoop_eq_nil_iff A fc _).1 (h line hline)
  · intro h line hline
    exact (checkEachWordLoop_eq_nil_iff A fc _).2 (h line hline)

theorem mapGet_initBase64Map_singleton (b : Byte) (hb : b ∈ BASE64_CHARS) :
    b.val < 0x80 ∧ mapGet initBase64Map [b] = true :=
  ⟨BASE64_CHARS_ascii b hb, (mapGet_initBase64Map [b]).2 ⟨b, hb, rfl⟩⟩

theorem NewFileContentDetector_base64Map :
    NewFileContentDetector.base64Map = initBase64Map := by
  simp only [NewFileContentDetector]

theorem NewFileContentDetector_aggressiveDetector :
    NewFileContentDetector.aggressiveDetector = none := by
  simp only [NewFileContentDetector]

theorem checkBase64Encoding_of_no_candidate {F : Type} (A : FloatOps F) (word : GoString)
    (h : getEntropyCandidatesWithinWord word 20 initBase64Map = []) :
    checkBase64Encoding A NewFileContentDetector word = [] := by
  have h2 := checkBase64Encoding_of_no_hit A NewFileContentDetector word
  have e3 : MIN_SECRET_LENGTH = 20 := rfl
  rw [NewFileContentDetector_base64Map, NewFileContentDetector_aggressiveDetector, e3, h]
    at h2
  exact h2 (by simp)

theorem shannonEntropy_replicate (c : Byte) (n : Nat) (hn : 0 < n) :
    shannonEntropy (List.replicate n c) = 0 := by
  have hn' : (n : ℝ) ≠ 0 := by exact_mod_cast hn.ne'
  unfold shannonEntropy
  rw [List.toFinset_replicate_of_ne_zero hn.ne', Finset.sum_singleton,
    List.count_replicate_self, List.length_replicate, div_self hn', Real.logb_one]
  simp

/-! ## The fast rejection and the alphabet -/

theorem getEntropyCandidatesWithinWord_eq_noGuard (word : GoString) (minLen : Int)
    (superSet : StringBoolMap) :
    getEntropyCandidatesWithinWord word minLen superSet
      = getEntropyCandidatesWithinWordNoGuard word minLen superSet := by
  rw [getEntropyCandidatesWithinWord_eq_spans]
  unfold getEntropyCandidatesWithinWordNoGuard
  exact (scan_eq_spans word minLen superSet).symm

theorem initBase64Map_keys_nodup : (initBase64Map.map Prod.fst).Nodup := by
  rw [initBase64Map_eq, List.map_map]
  exact BASE64_CHARS_nodup.map (fun x y h => by simpa using h)

set_option maxRecDepth 100000 in
theorem BASE64_CHARS_in_ranges : ∀ b ∈ BASE64_CHARS,
    ((65 ≤ b.val ∧ b.val ≤ 90) ∨ (97 ≤ b.val ∧ b.val ≤ 122) ∨ (48 ≤ b.val ∧ b.val ≤ 57)
      ∨ b.val = 43 ∨ b.val = 47 ∨ b.val = 61) :=
  forall_mem_of_all _ _ (by decide)

set_option maxRecDepth 100000 in
theorem ranges_in_BASE64_CHARS : ∀ n ∈ List.range 256,
    ((65 ≤ n ∧ n ≤ 90) ∨ (97 ≤ n ∧ n ≤ 122) ∨ (48 ≤ n ∧ n ≤ 57) ∨ n = 43 ∨ n = 47 ∨ n = 61) →
      n ∈ BASE64_CHARS.map (fun b => b.val) :=
  forall_mem_of_all _ _ (by decide)

/-! ## The calls of `Test` for one addition -/

theorem testAddition_flagged {F : Type} (A : FloatOps F) (fc : FileContentDetector)
    (ignores : Addition → Bool) (a : Addition) (h1 : ignores a = false)
    (h2 : checkBase64EncodingForFile A fc a.Data ≠ []) :
    testAddition A fc ignores [] a
      = [SinkCall.Fail a.Path
          (lit "Expected file to not to contain base64 encoded texts such as: "
            ++ checkBase64EncodingForFile A fc a.Data)] := by
  unfold testAddition
  simp [h1, h2]

theorem testAddition_clean {F : Type} (A : FloatOps F) (fc : FileContentDetector)
    (ignores : Addition → Bool) (a : Addition) (h1 : ignores a = false)
    (h2 : checkBase64EncodingForFile A fc a.Data = []) :
    testAddition A fc ignores [] a = [] := by
  unfold testAddition
  simp [h1, h2]

/-! ## Words of pairwise distinct characters -/

theorem shannonEntropy_nodup (s : GoString) (hnd : s.Nodup) (hs : s ≠ []) :
    shannonEntropy s = Real.logb 2 s.length := by
  have hN : 0 < s.length := List.length_pos.2 hs
  have hN' : (s.length : ℝ) ≠ 0 := by exact_mod_cast hN.ne'
  unfold shannonEntropy
  have hterm : ∀ c ∈ s.toFinset,
      ((s.count c : ℝ) / s.length) * Real.logb 2 ((s.count c : ℝ) / s.length)
        = (1 / (s.length : ℝ)) * Real.logb 2 (1 / (s.length : ℝ)) := by
    intro c hc
    rw [List.mem_toFinset] at hc
    rw [List.count_eq_one_of_mem hnd hc]
    simp
  rw [Finset.sum_congr rfl hterm, Finset.sum_const, List.toFinset_card_of_nodup hnd,
    nsmul_eq_mul, one_div, Real.logb_inv]
  field_simp

theorem nine_halves_lt_logb (n : ℕ) (h : 23 ≤ n) : (9 / 2 : ℝ) < Real.logb 2 n := by
  have hn : (0 : ℝ) < n := by
    have : 0 < n := by omega
    exact_mod_cast this
  have h1 : Real.logb 2 ((2 : ℝ) ^ 9) = 9 := by
    rw [Real.logb_pow, Real.logb_self_eq_one (by norm_num)]
    norm_num
  have h2 : Real.logb 2 ((n : ℝ) ^ 2) = 2 * Real.logb 2 n := by
    rw [Real.logb_pow]
    norm_num
  have h3 : ((2 : ℝ) ^ 9) < (n : ℝ) ^ 2 := by
    have : 2 ^ 9 < n ^ 2 := by nlinarith
    exact_mod_cast this
  have h4 := (Real.logb_lt_logb_iff (b := 2) (by norm_num) (by positivity)
    (by positivity)).2 h3
  rw [h1, h2] at h4
  linarith

theorem logb_lt_nine_halves (n : ℕ) (h0 : 1 ≤ n) (h : n ≤ 22) :
    Real.logb 2 n < (9 / 2 : ℝ) := by
  have hn : (0 : ℝ) < n := by
    have : 0 < n := by omega
    exact_mod_cast this
  have h1 : Real.logb 2 ((2 : ℝ) ^ 9) = 9 := by
    rw [Real.logb_pow, Real.logb_self_eq_one (by norm_num)]
    norm_num
  have h2 : Real.logb 2 ((n : ℝ) ^ 2) = 2 * Real.logb 2 n := by
    rw [Real.logb_pow]
    norm_num
  have h3 : (n : ℝ) ^ 2 < ((2 : ℝ) ^ 9) := by
    have : n ^ 2 < 2 ^ 9 := by nlinarith
    exact_mod_cast this
  have h4 := (Real.logb_lt_logb_iff (b := 2) (by norm_num) (by positivity)
    (by positivity)).2 h3
  rw [h1, h2] at h4
  linarith

theorem realOps_threshold : realOps.const BASE64_ENTROPY_THRESHOLD = (9 / 2 : ℝ) := by
  simp [realOps, BASE64_ENTROPY_THRESHOLD]
  norm_num

theorem length_le_65_of_nodup (word : GoString) (hmem : ∀ b ∈ word, b ∈ BASE64_CHARS)
    (hnd : word.Nodup) : word.length ≤ 65 := by
  have hsub : word.toFinset ⊆ BASE64_CHARS.toFinset := by
    intro b hb
    rw [List.mem_toFinset] at hb ⊢
    exact hmem b hb
  have h1 := Finset.card_le_card hsub
  rw [List.toFinset_card_of_nodup hnd, List.toFinset_card_of_nodup BASE64_CHARS_nodup] at h1
  have h2 : BASE64_CHARS.length = 65 := by decide
  omega

/-- A word of pairwise distinct base64 characters: its candidate and its entropy. -/
theorem nodup_word_entropy (word : GoString) (hmem : ∀ b ∈ word, b ∈ BASE64_CHARS)
    (hnd : word.Nodup) (hlen : 20 < word.length) :
    getEntropyCandidatesWithinWord word 20 initBase64Map = [word] ∧
    getShannonEntropy realOps word BASE64_CHARS = Real.logb 2 word.length := by
  constructor
  · rw [candidates_of_alphabet_word _ 20 initBase64Map
      (fun b hb => mapGet_initBase64Map_singleton b (hmem b hb)), if_pos]
    exact_mod_cast hlen
  · rw [getShannonEntropy_eq_shannonEntropy_aux _ hmem]
    exact shannonEntropy_nodup word hnd (by
      intro h
      rw [h] at hlen
      simp at hlen)

/-- A word of at least 23 pairwise distinct base64 characters is returned, with or without
a secondary detector. -/
theorem nodup_word_flagged (fc : FileContentDetector) (hfc : fc.base64Map = initBase64Map)
    (word : GoString) (hmem : ∀ b ∈ word, b ∈ BASE64_CHARS) (hnd : word.Nodup)
    (hlen : 23 ≤ word.length) :
    checkBase64Encoding realOps fc word = word := by
  obtain ⟨hc, he⟩ := nodup_word_entropy word hmem hnd (by omega)
  apply checkBase64Encoding_of_hit
  have e3 : MIN_SECRET_LENGTH = 20 := rfl
  rw [hfc, e3, hc]
  refine ⟨word, List.mem_singleton.2 rfl, ?_⟩
  rw [realOps_gt_iff, realOps_threshold, he]
  exact nine_halves_lt_logb _ hlen

/-- A word of 21 or 22 pairwise distinct base64 characters has no candidate above the
threshold. -/
theorem nodup_word_not_hit (word : GoString) (hmem : ∀ b ∈ word, b ∈ BASE64_CHARS)
    (hnd : word.Nodup) (hlen : 20 < word.length) (hlen2 : word.length ≤ 22) :
    ¬ ∃ c ∈ getEntropyCandidatesWithinWord word MIN_SECRET_LENGTH initBase64Map,
      realOps.gt (getShannonEntropy realOps c BASE64_CHARS)
        (realOps.const BASE64_ENTROPY_THRESHOLD) = true := by
  obtain ⟨hc, he⟩ := nodup_word_entropy word hmem hnd hlen
  have e3 : MIN_SECRET_LENGTH = 20 := rfl
  rw [e3, hc]
  rintro ⟨c, hcm, hgt⟩
  rw [List.mem_singleton.1 hcm, realOps_gt_iff, realOps_threshold, he] at hgt
  have := logb_lt_nine_halves word.length (by omega) hlen2
  linarith

theorem AggressiveMode_base64Map (t : GoString → GoString) :
    (AggressiveMode NewFileContentDetector t).base64Map = initBase64Map := by
  simp only [AggressiveMode, NewFileContentDetector]

theorem AggressiveMode_aggressiveDetector (t : GoString → GoString) :
    (AggressiveMode NewFileContentDetector t).aggressiveDetector = some t := by
  simp only [AggressiveMode]

set_option maxRecDepth 100000 in
theorem aladdin_mem : ∀ b ∈ lit "QWxhZGRpbjpvcGVuIHNlc2FtZQo=", b ∈ BASE64_CHARS :=
  forall_mem_of_all _ _ (by decide)

set_option maxRecDepth 100000 in
theorem aladdin_candidates :
    getEntropyCandidatesWithinWord (lit "QWxhZGRpbjpvcGVuIHNlc2FtZQo=") 20 initBase64Map
      = [lit "QWxhZGRpbjpvcGVuIHNlc2FtZQo="] :=
  (candidates_of_alphabet_word _ 20 initBase64Map
    (fun b hb => mapGet_initBase64Map_singleton b (aladdin_mem b hb))).trans
    (if_pos (by decide))

set_option maxRecDepth 100000 in
theorem aladdin_not_above :
    realOps.gt (getShannonEntropy realOps (lit "QWxhZGRpbjpvcGVuIHNlc2FtZQo=") BASE64_CHARS)
      (realOps.const BASE64_ENTROPY_THRESHOLD) = false := by
  rw [entropy_gt_threshold_iff]
  decide

/-! ## The entropy and the number of distinct characters -/

theorem sum_freq_eq_one (s : GoString) (hs : s ≠ []) :
    Finset.sum s.toFinset (fun c => (s.count c : ℝ) / s.length) = 1 := by
  have hN : (s.length : ℝ) ≠ 0 := by
    have : 0 < s.length := List.length_pos.2 hs
    exact_mod_cast this.ne'
  rw [← Finset.sum_div]
  have h := List.sum_toFinset_count_eq_length s
  have h' : Finset.sum s.toFinset (fun c => (s.count c : ℝ)) = (s.length : ℝ) := by
    exact_mod_cast h
  rw [h', div_self hN]

theorem entropy_term_le (f k : ℝ) (hf : 0 < f) (hk : 0 < k) :
    -(f * Real.logb 2 f) ≤ f * Real.logb 2 k + (1 / k - f) / Real.log 2 := by
  have hlog2 : 0 < Real.log 2 := Real.log_pos (by norm_num)
  have h1 : Real.log (1 / (k * f)) ≤ 1 / (k * f) - 1 :=
    Real.log_le_sub_one_of_pos (by positivity)
  have h2 : Real.log (1 / (k * f)) = -Real.log k - Real.log f := by
    rw [one_div, Real.log_inv, Real.log_mul hk.ne' hf.ne']
    ring
  rw [h2] at h1
  have h3 : f * (-Real.log k - Real.log f) ≤ f * (1 / (k * f) - 1) :=
    mul_le_mul_of_nonneg_left h1 hf.le
  have h4 : f * (1 / (k * f) - 1) = 1 / k - f := by
    field_simp
    ring
  rw [h4] at h3
  unfold Real.logb
  rw [show -(f * (Real.log f / Real.log 2))
      = (f * (-Real.log k - Real.log f) + f * Real.log k) / Real.log 2 by field_simp; ring,
    show f * (Real.log k / Real.log 2) + (1 / k - f) / Real.log 2
      = ((1 / k - f) + f * Real.log k) / Real.log 2 by field_simp; ring]
  apply div_le_div_of_nonneg_right _ hlog2.le
  linarith

/-- The entropy of a string is at most `log2` of the number of its distinct bytes. -/
theorem shannonEntropy_le_logb_card (s : GoString) (hs : s ≠ []) :
    shannonEntropy s ≤ Real.logb 2 s.toFinset.card := by
  have hN : (0 : ℝ) < s.length := by
    have : 0 < s.length := List.length_pos.2 hs
    exact_mod_cast this
  have hk : (0 : ℝ) < s.toFinset.card := by
    have : 0 < s.toFinset.card := by
      rw [Finset.card_pos]
      obtain ⟨b, hb⟩ := List.exists_mem_of_ne_nil s hs
      exact ⟨b, List.mem_toFinset.2 hb⟩
    exact_mod_cast this
  unfold shannonEntropy
  rw [← Finset.sum_neg_distrib]
  calc Finset.sum s.toFinset (fun c =>
          -(((s.count c : ℝ) / s.length) * Real.logb 2 ((s.count c : ℝ) / s.length)))
      ≤ Finset.sum s.toFinset (fun c =>
          ((s.count c : ℝ) / s.length) * Real.logb 2 s.toFinset.card
            + (1 / (s.toFinset.card : ℝ) - (s.count c : ℝ) / s.length) / Real.log 2) := by
        apply Finset.sum_le_sum
        intro c hc
        rw [List.mem_toFinset] at hc
        have hc' : (0 : ℝ) < s.count c := by
          have : 0 < s.count c := List.count_pos_iff.2 hc
          exact_mod_cast this
        exact entropy_term_le _ _ (div_pos hc' hN) hk
    _ = Real.logb 2 s.toFinset.card := by
        rw [Finset.sum_add_distrib, ← Finset.sum_mul, ← Finset.sum_div _ _ (Real.log 2),
          Finset.sum_sub_distrib, sum_freq_eq_one s hs, Finset.sum_const, nsmul_eq_mul]
        field_simp

theorem card_ge_23_of_entropy (s : GoString) (hmem : ∀ b ∈ s, b ∈ BASE64_CHARS)
    (hgt : realOps.gt (getShannonEntropy realOps s BASE64_CHARS)
      (realOps.const BASE64_ENTROPY_THRESHOLD) = true) :
    getShannonEntropy realOps s BASE64_CHARS ≤ Real.logb 2 s.toFinset.card ∧
    23 ≤ s.toFinset.card := by
  rw [realOps_gt_iff, realOps_threshold] at hgt
  have hs : s ≠ [] := by
    rintro rfl
    rw [getShannonEntropy_nil] at hgt
    norm_num at hgt
  have hle : getShannonEntropy realOps s BASE64_CHARS ≤ Real.logb 2 s.toFinset.card := by
    rw [getShannonEntropy_eq_shannonEntropy_aux s hmem]
    exact shannonEntropy_le_logb_card s hs
  refine ⟨hle, ?_⟩
  by_contra hlt
  push_neg at hlt
  have hpos : 1 ≤ s.toFinset.card := by
    have : 0 < s.toFinset.card := by
      rw [Finset.card_pos]
      obtain ⟨b, hb⟩ := List.exists_mem_of_ne_nil s hs
      exact ⟨b, List.mem_toFinset.2 hb⟩
    omega
  have := logb_lt_nine_halves s.toFinset.card hpos (by omega)
  linarith

theorem runesToString_base64 (run : List Rune)
    (h : ∀ c ∈ run, inAlphabet initBase64Map c = true) :
    (runesToString run).length = run.length ∧ ∀ b ∈ runesToString run, b ∈ BASE64_CHARS := by
  unfold runesToString
  induction run with
  | nil => simp
  | cons r t ih =>
    obtain ⟨b, hb, rfl⟩ := (inAlphabet_initBase64Map r).1 (h r (List.mem_cons_self _ _))
    obtain ⟨ih1, ih2⟩ := ih (fun x hx => h x (List.mem_cons_of_mem _ hx))
    rw [List.flatMap_cons, runeToString_ascii b (BASE64_CHARS_ascii b hb)]
    constructor
    · simp only [List.singleton_append, List.length_cons, ih1]
    · intro x hx
      rcases List.mem_cons.1 hx with rfl | hx'
      · exact hb
      · exact ih2 x hx'

theorem mem_candidates_base64 (word : GoString) (minLen : Int) (cand : GoString)
    (h : cand ∈ getEntropyCandidatesWithinWord word minLen initBase64Map) :
    (∀ b ∈ cand, b ∈ BASE64_CHARS) ∧ cand.length ≤ (rangeRunes word).length := by
  rw [getEntropyCandidatesWithinWord_eq_spans] at h
  obtain ⟨⟨i, j⟩, hs, rfl⟩ := List.mem_map.1 h
  obtain ⟨hs1, _⟩ := List.mem_filter.1 hs
  have hrun := (spans_isRun_iff _ _ i j).1 hs1
  obtain ⟨h1, h2⟩ := runesToString_base64 _ (mem_slice_of_isRun _ _ i j hrun)
  refine ⟨h2, ?_⟩
  simp only
  rw [h1, length_slice _ hrun.2.1]
  have := hrun.2.1
  omega

theorem not_hit_of_short (word : GoString) (h : (rangeRunes word).length < 23) :
    ¬ ∃ c ∈ getEntropyCandidatesWithinWord word MIN_SECRET_LENGTH initBase64Map,
      realOps.gt (getShannonEntropy realOps c BASE64_CHARS)
        (realOps.const BASE64_ENTROPY_THRESHOLD) = true := by
  rintro ⟨c, hc, hgt⟩
  obtain ⟨hmem, hlen⟩ := mem_candidates_base64 word _ c hc
  have h23 := (card_ge_23_of_entropy c hmem hgt).2
  have := List.toFinset_card_le c
  omega

/-! ## Decoding and encoding of runes -/

theorem decodeRune_width_le (b : Byte) (t : GoString) :
    (decodeRune (b :: t)).2 - 1 ≤ t.length := by
  rcases t with _ | ⟨x, _ | ⟨y, _ | ⟨z, t⟩⟩⟩ <;>
    (simp only [decodeRune]; split_ifs <;> simp)

theorem decodeRune_append (b : Byte) (t rest : GoString)
    (hrest : ∀ r ∈ rest.head?, isCont r = false) :
    decodeRune (b :: (t ++ rest)) = decodeRune (b :: t) := by
  rcases rest with _ | ⟨r, rest⟩
  · simp
  · have hr : isCont r = false := hrest r (by simp)
    rcases t with _ | ⟨x, _ | ⟨y, _ | ⟨z, t⟩⟩⟩ <;>
      rcases rest with _ | ⟨r2, _ | ⟨r3, rest⟩⟩ <;>
      simp [decodeRune, hr]

theorem decodeRune_runeToString (r : Nat) (rest : GoString)
    (hv : r ≤ 0x10FFFF ∧ ¬ (0xD800 ≤ r ∧ r ≤ 0xDFFF)) :
    decodeRune (runeToString r ++ rest) = (r, (runeToString r).length) := by
  unfold runeToString
  by_cases h1 : r ≤ 0x7F
  · rw [if_pos h1]
    have hb : (Fin.ofNat r : Fin 256).val = r := by
      simp only [Fin.ofNat, Nat.reduceAdd]
      omega
    have c1 : r < 128 := by omega
    simp only [List.singleton_append, decodeRune, hb, List.length_singleton]
    rw [if_pos c1]
  · rw [if_neg h1]
    by_cases h2 : r ≤ 0x7FF
    · rw [if_pos h2]
      have hb0 : (Fin.ofNat (0xC0 + r / 64) : Fin 256).val = 0xC0 + r / 64 := by
        simp only [Fin.ofNat, Nat.reduceAdd]
        omega
      have hb1 : (Fin.ofNat (0x80 + r % 64) : Fin 256).val = 0x80 + r % 64 := by
        simp only [Fin.ofNat, Nat.reduceAdd]
        omega
      have c1 : ¬ (192 + r / 64 < 128) := by omega
      have c2 : 192 ≤ 192 + r / 64 ∧ 192 + r / 64 < 224 := by omega
      have c3 : (decide (128 ≤ 128 + r % 64) && decide (128 + r % 64 ≤ 191)) = true := by
        simp
        omega
      have c4 : 127 < (192 + r / 64) % 32 * 64 + (128 + r % 64) % 64 := by omega
      have c5 : (192 + r / 64) % 32 * 64 + (128 + r % 64) % 64 = r := by omega
      simp only [List.cons_append, List.nil_append, decodeRune, isCont, hb0, hb1,
        List.length_cons, List.length_nil]
      rw [if_neg c1, if_pos c2, if_pos c3, if_pos c4, c5]
    · rw [if_neg h2]
      have h3 : ¬ (0x10FFFF < r ∨ (0xD800 ≤ r ∧ r ≤ 0xDFFF)) := by omega
      rw [if_neg h3]
      by_cases h4 : r ≤ 0xFFFF
      · rw [if_pos h4]
        have hb0 : (Fin.ofNat (0xE0 + r / 4096) : Fin 256).val = 0xE0 + r / 4096 := by
          simp only [Fin.ofNat, Nat.reduceAdd]
          omega
        have hb1 : (Fin.ofNat (0x80 + r / 64 % 64) : Fin 256).val = 0x80 + r / 64 % 64 := by
          simp only [Fin.ofNat, Nat.reduceAdd]
          omega
        have hb2 : (Fin.ofNat (0x80 + r % 64) : Fin 256).val = 0x80 + r % 64 := by
          simp only [Fin.ofNat, Nat.reduceAdd]
          omega
        have c1 : ¬ (224 + r / 4096 < 128) := by omega
        have c2 : ¬ (192 ≤ 224 + r / 4096 ∧ 224 + r / 4096 < 224) := by omega
        have c3 : 224 ≤ 224 + r / 4096 ∧ 224 + r / 4096 < 240 := by omega
        have c4 : (decide (128 ≤ 128 + r / 64 % 64) && decide (128 + r / 64 % 64 ≤ 191)
            && (decide (128 ≤ 128 + r % 64) && decide (128 + r % 64 ≤ 191))) = true := by
          simp
          omega
        have c6 : (224 + r / 4096) % 16 * 4096 + (128 + r / 64 % 64) % 64 * 64
            + (128 + r % 64) % 64 = r := by omega
        have c5 : 2047 < r ∧ ¬ (55296 ≤ r ∧ r ≤ 57343) := by omega
        simp only [List.cons_append, List.nil_append, decodeRune, isCont, hb0, hb1, hb2,
          List.length_cons, List.length_nil, c6]
        rw [if_neg c1, if_neg c2, if_pos c3, if_pos c4, if_pos c5]
      · rw [if_neg h4]
        have hb0 : (Fin.ofNat (0xF0 + r / 262144) : Fin 256).val = 0xF0 + r / 262144 := by
          simp only [Fin.ofNat, Nat.reduceAdd]
          omega
        have hb1 : (Fin.ofNat (0x80 + r / 4096 % 64) : Fin 256).val
            = 0x80 + r / 4096 % 64 := by
          simp only [Fin.ofNat, Nat.reduceAdd]
          omega
        have hb2 : (Fin.ofNat (0x80 + r / 64 % 64) : Fin 256).val = 0x80 + r / 64 % 64 := by
          simp only [Fin.ofNat, Nat.reduceAdd]
          omega
        have hb3 : (Fin.ofNat (0x80 + r % 64) : Fin 256).val = 0x80 + r % 64 := by
          simp only [Fin.ofNat, Nat.reduceAdd]
          omega
        have c1 : ¬ (240 + r / 262144 < 128) := by omega
        have c2 : ¬ (192 ≤ 240 + r / 262144 ∧ 240 + r / 262144 < 224) := by omega
        have c3 : ¬ (224 ≤ 240 + r / 262144 ∧ 240 + r / 262144 < 240) := by omega
        have c4 : 240 ≤ 240 + r / 262144 ∧ 240 + r / 262144 < 248 := by omega
        have c5 : (decide (128 ≤ 128 + r / 4096 % 64) && decide (128 + r / 4096 % 64 ≤ 191)
            && (decide (128 ≤ 128 + r / 64 % 64) && decide (128 + r / 64 % 64 ≤ 191))
            && (decide (128 ≤ 128 + r % 64) && decide (128 + r % 64 ≤ 191))) = true := by
          simp
          omega
        have c7 : (240 + r / 262144) % 8 * 262144 + (128 + r / 4096 % 64) % 64 * 4096
            + (128 + r / 64 % 64) % 64 * 64 + (128 + r % 64) % 64 = r := by omega
        have c6 : 65535 < r ∧ r ≤ 1114111 := by omega
        simp only [List.cons_append, List.nil_append, decodeRune, isCont, hb0, hb1, hb2, hb3,
          List.length_cons, List.length_nil, c7]
        rw [if_neg c1, if_neg c2, if_neg c3, if_pos c4, if_pos c5, if_pos c6]

theorem scanCandidates_eq_spans (minLen : Int) (superSet : StringBoolMap) (l : List Rune) :
    scanCandidates minLen superSet l
      = ((spansAux (inAlphabet superSet) 0 0 l).filter
          (fun s => decide (minLen < (s.2 : Int) - s.1))).map
          (fun s => runesToString (slice l s.1 s.2)) := by
  have := scan_spans minLen superSet l l ⟨[], 0, []⟩ 0 0
    (by simp) (le_refl _) (by simp) (by simp [slice, runesToString])
  unfold scanCandidates
  simpa using this

theorem scanCandidates_from (minLen : Int) (superSet : StringBoolMap) (l : List Rune)
    (C : List GoString) :
    (if (l.foldl (scanStep minLen superSet) ⟨C, 0, []⟩).count > minLen then
        (l.foldl (scanStep minLen superSet) ⟨C, 0, []⟩).candidates
          ++ [(l.foldl (scanStep minLen superSet) ⟨C, 0, []⟩).subSet]
      else (l.foldl (scanStep minLen superSet) ⟨C, 0, []⟩).candidates)
    = C ++ scanCandidates minLen superSet l := by
  have := scan_spans minLen superSet l l ⟨C, 0, []⟩ 0 0
    (by simp) (le_refl _) (by simp) (by simp [slice, runesToString])
  rw [scanCandidates_eq_spans]
  simpa using this

theorem scanCandidates_append (minLen : Int) (superSet : StringBoolMap)
    (la lb : List Rune) (s : Rune) (hs : inAlphabet superSet s = false) :
    scanCandidates minLen superSet (la ++ s :: lb)
      = scanCandidates minLen superSet la ++ scanCandidates minLen superSet lb := by
  have hstep : ∀ st : ScanState, scanStep minLen superSet st s
      = ⟨if st.count > minLen then st.candidates ++ [st.subSet] else st.candidates, 0, []⟩ := by
    intro st
    unfold scanStep
    unfold inAlphabet at hs
    simp [hs]
  have h := scanCandidates_from minLen superSet lb (scanCandidates minLen superSet la)
  unfold scanCandidates at h ⊢
  simp only [List.foldl_append, List.foldl_cons, hstep]
  exact h

theorem getEntropyCandidatesWithinWord_eq_scanCandidates (word : GoString) (minLen : Int)
    (superSet : StringBoolMap) :
    getEntropyCandidatesWithinWord word minLen superSet
      = scanCandidates minLen superSet (rangeRunes word) := by
  rw [getEntropyCandidatesWithinWord_eq_spans, scanCandidates_eq_spans]

theorem runeToString_canonicalRune (c : Nat) :
    runeToString (canonicalRune c) = runeToString c ∧
    (canonicalRune c ≤ 0x10FFFF ∧ ¬ (0xD800 ≤ canonicalRune c ∧ canonicalRune c ≤ 0xDFFF)) := by
  unfold canonicalRune
  by_cases h : (0x10FFFF : Nat) < c ∨ ((0xD800 : Nat) ≤ c ∧ c ≤ (0xDFFF : Nat))
  · rw [if_pos h]
    constructor
    · have h1 : ¬ c ≤ (0x7F : Nat) := by omega
      have h2 : ¬ c ≤ (0x7FF : Nat) := by omega
      unfold runeToString
      rw [if_neg h1, if_neg h2, if_pos h]
      decide
    · decide
  · rw [if_neg h]
    refine ⟨rfl, ?_⟩
    show c ≤ (0x10FFFF : Nat) ∧ ¬ ((0xD800 : Nat) ≤ c ∧ c ≤ (0xDFFF : Nat))
    omega

theorem runeToString_head (c : Nat) (rest : GoString) :
    ∀ x ∈ (runeToString c ++ rest).head?, isCont x = false := by
  intro x hx
  unfold runeToString at hx
  split_ifs at hx with h1 h2 h3 h4
  all_goals
    simp only [List.cons_append, List.head?_cons, Option.mem_def, Option.some.injEq] at hx
    subst hx
    simp only [isCont, Fin.ofNat, Nat.reduceAdd, Bool.and_eq_false_imp, decide_eq_true_eq,
      decide_eq_false_iff_not, not_le]
  · have h1' : c ≤ 127 := h1
    omega
  · have h2' : c ≤ 2047 := h2
    omega
  · decide
  · have h4' : c ≤ 65535 := h4
    omega
  · have h3' : ¬ (1114111 < c ∨ (55296 ≤ c ∧ c ≤ 57343)) := h3
    omega

theorem rangeRunesAux_skip (x b : GoString) (j : Nat) :
    rangeRunesAux (x.length + j) (x ++ b) = rangeRunesAux j b := by
  induction x with
  | nil => simp
  | cons y t ih =>
    have : (y :: t).length + j = (t.length + j) + 1 := by
      simp only [List.length_cons]
      omega
    rw [this, List.cons_append, rangeRunesAux, ih]

theorem rangeRunes_runeToString_append (c : Nat) (b : GoString) :
    rangeRunes (runeToString c ++ b) = canonicalRune c :: rangeRunes b := by
  obtain ⟨he, hv⟩ := runeToString_canonicalRune c
  have hd := decodeRune_runeToString (canonicalRune c) b hv
  rw [he] at hd
  have hpos := runeToString_length_pos c
  unfold rangeRunes
  rcases hrs : runeToString c with _ | ⟨y, t⟩
  · rw [hrs] at hpos
    simp at hpos
  · rw [hrs] at hd
    rw [List.cons_append, rangeRunesAux]
    rw [List.cons_append] at hd
    rw [hd]
    simp only [List.length_cons, Nat.add_sub_cancel]
    have := rangeRunesAux_skip t b 0
    rw [Nat.add_zero] at this
    rw [this]

theorem rangeRunesAux_append (rest : GoString)
    (hrest : ∀ r ∈ rest.head?, isCont r = false) :
    ∀ (a : GoString) (k : Nat),
      rangeRunesAux k (a ++ rest) = rangeRunesAux k a ++ rangeRunesAux (k - a.length) rest := by
  intro a
  induction a with
  | nil => intro k; simp [rangeRunesAux]
  | cons y t ih =>
    intro k
    have e : (y :: t) ++ rest = y :: (t ++ rest) := rfl
    rw [e]
    cases k with
    | zero =>
      have hw := decodeRune_width_le y t
      have hdec := decodeRune_append y t rest hrest
      have h0 : (decodeRune (y :: t)).2 - 1 - t.length = 0 := by omega
      have h1 : 0 - (y :: t).length = 0 := by simp
      rw [rangeRunesAux, rangeRunesAux, hdec, ih, h0, h1, List.cons_append]
    | succ k =>
      have h1 : k + 1 - (y :: t).length = k - t.length := by
        simp only [List.length_cons]
        omega
      rw [rangeRunesAux, rangeRunesAux, ih, h1]

theorem rangeRunes_append_sep (a b : GoString) (c : Nat) :
    rangeRunes (a ++ runeToString c ++ b)
      = rangeRunes a ++ canonicalRune c :: rangeRunes b := by
  unfold rangeRunes
  rw [List.append_assoc, rangeRunesAux_append _ (runeToString_head c b) a 0]
  simp only [Nat.zero_sub]
  exact congrArg _ (rangeRunes_runeToString_append c b)

theorem candidates_append_sep (a b : GoString) (sep : Rune) (minLen : Int)
    (superSet : StringBoolMap) (hsep : inAlphabet superSet sep = false) :
    getEntropyCandidatesWithinWord (a ++ runeToString sep ++ b) minLen superSet
      = getEntropyCandidatesWithinWord a minLen superSet
        ++ getEntropyCandidatesWithinWord b minLen superSet := by
  have hc : inAlphabet superSet (canonicalRune sep) = false := by
    unfold inAlphabet at hsep ⊢
    rw [(runeToString_canonicalRune sep).1]
    exact hsep
  rw [getEntropyCandidatesWithinWord_eq_scanCandidates,
    getEntropyCandidatesWithinWord_eq_scanCandidates,
    getEntropyCandidatesWithinWord_eq_scanCandidates, rangeRunes_append_sep,
    scanCandidates_append _ _ _ _ _ hc]

theorem candidates_nil_of_short_bytes (word : GoString) (minLen : Int)
    (superSet : StringBoolMap) (h : (word.length : Int) ≤ minLen) :
    getEntropyCandidatesWithinWord word minLen superSet = [] :=
  candidates_nil_of_short word minLen superSet (by
    have := rangeRunes_length_le word
    omega)

/-! ## Lines and words -/

theorem lit_newline : lit "\n" = [(10 : Byte)] := by decide

theorem stringsFieldsAux_append_newline (more : GoString) :
    ∀ (a : GoString) (k : Nat) (keep : Bool) (cur : GoString), k ≤ a.length →
      stringsFieldsAux k keep cur (a ++ (10 : Byte) :: more)
        = stringsFieldsAux k keep cur a ++ stringsFieldsAux 0 false [] more := by
  intro a
  induction a with
  | nil =>
    intro k keep cur hk
    have hk0 : k = 0 := by simpa using hk
    subst hk0
    have hd : decodeRune ((10 : Byte) :: more) = (10, 1) :=
      decodeRune_ascii 10 more (by decide)
    have hsp : isSpace 10 = true := by decide
    simp only [List.nil_append, stringsFieldsAux, hd, hsp, if_true, Nat.sub_self]
    by_cases hc : cur = []
    · simp [hc]
    · simp [hc]
  | cons y t ih =>
    intro k keep cur hk
    have e : (y :: t) ++ (10 : Byte) :: more = y :: (t ++ (10 : Byte) :: more) := rfl
    rw [e]
    cases k with
    | zero =>
      have hw := decodeRune_width_le y t
      have hdec := decodeRune_append y t ((10 : Byte) :: more) (by
        intro r hr
        simp only [List.head?_cons, Option.mem_def, Option.some.injEq] at hr
        subst hr
        decide)
      rw [stringsFieldsAux, stringsFieldsAux, hdec]
      by_cases hsp : isSpace (decodeRune (y :: t)).1 = true
      · rw [if_pos hsp, if_pos hsp]
        by_cases hc : cur = []
        · rw [if_pos hc, if_pos hc]
          exact ih _ _ _ hw
        · rw [if_neg hc, if_neg hc, ih _ _ _ hw]
          rfl
      · rw [if_neg hsp, if_neg hsp]
        exact ih _ _ _ hw
    | succ k =>
      have hk' : k ≤ t.length := by
        simp only [List.length_cons] at hk
        omega
      rw [stringsFieldsAux, stringsFieldsAux]
      by_cases hkeep : keep = true
      · rw [if_pos hkeep, if_pos hkeep]
        exact ih _ _ _ hk'
      · rw [if_neg hkeep, if_neg hkeep]
        exact ih _ _ _ hk'

theorem stringsFields_append_newline (a more : GoString) :
    stringsFields (a ++ (10 : Byte) :: more) = stringsFields a ++ stringsFields more :=
  stringsFieldsAux_append_newline more a 0 false [] (Nat.zero_le _)

theorem stringsSplitAux_newline_fields :
    ∀ (s cur : GoString),
      (stringsSplitAux [(10 : Byte)] 0 cur s).flatMap stringsFields
        = stringsFields (cur ++ s) := by
  intro s
  induction s with
  | nil =>
    intro cur
    simp [stringsSplitAux]
  | cons b t ih =>
    intro cur
    rw [stringsSplitAux]
    by_cases hb : b = 10
    · subst hb
      have hp : List.isPrefixOf [(10 : Byte)] ((10 : Byte) :: t) = true := by
        simp [List.isPrefixOf]
      rw [if_pos hp, List.flatMap_cons]
      have := ih []
      simp only [List.length_singleton, Nat.sub_self, List.nil_append] at this ⊢
      rw [this, stringsFields_append_newline]
    · have hp : ¬ List.isPrefixOf [(10 : Byte)] (b :: t) = true := by
        simp only [List.isPrefixOf, Bool.and_true, beq_iff_eq]
        exact fun h => hb h.symm
      rw [if_neg hp, ih]
      simp

/-- The words of a content are the words of its lines, in order. -/
theorem stringsFields_eq_lines (content : GoString) :
    stringsFields content = (stringsSplit content (lit "\n")).flatMap stringsFields := by
  unfold stringsSplit
  rw [lit_newline, if_neg (by simp), stringsSplitAux_newline_fields]
  simp

theorem checkEachWordLoop_append {F : Type} (A : FloatOps F) (fc : FileContentDetector)
    (ws1 ws2 : List GoString) :
    checkEachWordLoop A fc (ws1 ++ ws2)
      = if checkEachWordLoop A fc ws1 ≠ [] then checkEachWordLoop A fc ws1
        else checkEachWordLoop A fc ws2 := by
  induction ws1 with
  | nil => simp [checkEachWordLoop]
  | cons w ws ih =>
    simp only [List.cons_append, checkEachWordLoop]
    by_cases hw : checkBase64Encoding A fc w = []
    · simp [hw, ih]
    · simp [hw]

theorem checkEachLineLoop_eq_words {F : Type} (A : FloatOps F) (fc : FileContentDetector)
    (lines : List GoString) :
    checkEachLineLoop A fc lines = checkEachWordLoop A fc (lines.flatMap stringsFields) := by
  induction lines with
  | nil => rfl
  | cons l ls ih =>
    rw [List.flatMap_cons, checkEachWordLoop_append, checkEachLineLoop, ih]
    rfl

theorem checkEachLine_eq_checkEachWord_aux {F : Type} (A : FloatOps F)
    (fc : FileContentDetector) (content : GoString) :
    checkEachLine A fc content = checkEachWord A fc content := by
  unfold checkEachLine checkEachWord
  rw [checkEachLineLoop_eq_words, ← stringsFields_eq_lines]

theorem stringsFieldsAux_word :
    ∀ (s : GoString) (keep : Bool) (cur : GoString),
      (∀ b ∈ s, b.val < 0x80 ∧ isSpace b.val = false) → cur ++ s ≠ [] →
      stringsFieldsAux 0 keep cur s = [cur ++ s] := by
  intro s
  induction s with
  | nil =>
    intro keep cur _ hne
    have hc : cur ≠ [] := by simpa using hne
    simp [stringsFieldsAux, hc]
  | cons b t ih =>
    intro keep cur h _
    obtain ⟨hb1, hb2⟩ := h b (List.mem_cons_self _ _)
    rw [stringsFieldsAux, decodeRune_ascii b t hb1]
    simp only [hb2, Bool.false_eq_true, if_false, Nat.sub_self]
    rw [ih true (cur ++ [b]) (fun x hx => h x (List.mem_cons_of_mem _ hx)) (by simp)]
    simp

theorem stringsFields_word (s : GoString)
    (h : ∀ b ∈ s, b.val < 0x80 ∧ isSpace b.val = false) (hs : s ≠ []) :
    stringsFields s = [s] := by
  have := stringsFieldsAux_word s false [] h (by simpa using hs)
  simpa using this

set_option maxRecDepth 100000 in
theorem BASE64_CHARS_not_space : ∀ b ∈ BASE64_CHARS, b.val < 0x80 ∧ isSpace b.val = false :=
  forall_mem_of_all _ _ (by decide)

theorem checkEachLine_word {F : Type} (A : FloatOps F) (fc : FileContentDetector)
    (s : GoString) (h : ∀ b ∈ s, b ∈ BASE64_CHARS) (hs : s ≠ []) :
    checkEachLine A fc s = checkBase64Encoding A fc s := by
  rw [checkEachLine_eq_checkEachWord_aux]
  unfold checkEachWord
  rw [stringsFields_word s (fun b hb => BASE64_CHARS_not_space b (h b hb)) hs]
  simp only [checkEachWordLoop]
  by_cases hc : checkBase64Encoding A fc s = []
  · simp [hc]
  · simp [hc]

theorem Test_single {F : Type} (A : FloatOps F) (fc : FileContentDetector)
    (ignores : Addition → Bool) (a : Addition) :
    Test A fc [a] ignores [] = testAddition A fc ignores [] a := by
  rw [Test_eq_append]
  simp

theorem checkEachLine_ne_nil_of_word {F : Type} (A : FloatOps F) (fc : FileContentDetector)
    (content line word : GoString) (hline : line ∈ stringsSplit content (lit "\n"))
    (hword : word ∈ stringsFields line) (h : checkBase64Encoding A fc word ≠ []) :
    checkEachLine A fc content ≠ [] := by
  intro hnil
  exact h ((checkEachLine_eq_nil_iff A fc content).1 hnil line hline word hword)

/-! ## The words of the examples -/

set_option maxRecDepth 100000 in
theorem upper20_mem : ∀ b ∈ lit "ABCDEFGHIJKLMNOPQRST", b ∈ BASE64_CHARS :=
  forall_mem_of_all _ _ (by decide)

set_option maxRecDepth 100000 in
theorem upper21_mem : ∀ b ∈ lit "ABCDEFGHIJKLMNOPQRSTU", b ∈ BASE64_CHARS :=
  forall_mem_of_all _ _ (by decide)

set_option maxRecDepth 100000 in
theorem upper21_nodup : (lit "ABCDEFGHIJKLMNOPQRSTU").Nodup := by decide

set_option maxRecDepth 100000 in
theorem upper23_mem : ∀ b ∈ lit "ABCDEFGHIJKLMNOPQRSTUVW", b ∈ BASE64_CHARS :=
  forall_mem_of_all _ _ (by decide)

set_option maxRecDepth 100000 in
theorem upper23_nodup : (lit "ABCDEFGHIJKLMNOPQRSTUVW").Nodup := by decide

set_option maxRecDepth 100000 in
theorem lower23_mem : ∀ b ∈ lit "abcdefghijklmnopqrstuvw", b ∈ BASE64_CHARS :=
  forall_mem_of_all _ _ (by decide)

set_option maxRecDepth 100000 in
theorem lower23_nodup : (lit "abcdefghijklmnopqrstuvw").Nodup := by decide

theorem upper23_candidates :
    getEntropyCandidatesWithinWord (lit "ABCDEFGHIJKLMNOPQRSTUVW") 20 initBase64Map
      = [lit "ABCDEFGHIJKLMNOPQRSTUVW"] :=
  (nodup_word_entropy _ upper23_mem upper23_nodup (by decide)).1

set_option maxRecDepth 100000 in
/-- The character `.` is not in the base64 alphabet. -/
theorem dot_not_in_alphabet : inAlphabet initBase64Map 46 = false := by
  have h : BASE64_CHARS.all (fun b => decide (46 ≠ b.val)) = true := by decide
  cases hin : inAlphabet initBase64Map 46
  · rfl
  · obtain ⟨b, hb, hbe⟩ := (inAlphabet_initBase64Map 46).1 hin
    exact absurd hbe (of_decide_eq_true (List.all_eq_true.1 h b hb))

set_option maxRecDepth 100000 in
/-- The candidates of `"AB.CDE.F"` with the minimum 1 over the base64 alphabet. -/
theorem example_candidates :
    getEntropyCandidatesWithinWord (lit "AB.CDE.F") 1 initBase64Map
      = [lit "AB", lit "CDE"] := by
  have hsplit : lit "AB.CDE.F"
      = lit "AB" ++ runeToString 46 ++ (lit "CDE" ++ runeToString 46 ++ lit "F") := by decide
  have hAB : ∀ b ∈ lit "AB", b ∈ BASE64_CHARS := forall_mem_of_all _ _ (by decide)
  have hCDE : ∀ b ∈ lit "CDE", b ∈ BASE64_CHARS := forall_mem_of_all _ _ (by decide)
  have hF : ∀ b ∈ lit "F", b ∈ BASE64_CHARS := forall_mem_of_all _ _ (by decide)
  rw [hsplit, candidates_append_sep _ _ _ _ _ dot_not_in_alphabet,
    candidates_append_sep _ _ _ _ _ dot_not_in_alphabet,
    candidates_of_alphabet_word _ 1 initBase64Map
      (fun b hb => mapGet_initBase64Map_singleton b (hAB b hb)),
    candidates_of_alphabet_word _ 1 initBase64Map
      (fun b hb => mapGet_initBase64Map_singleton b (hCDE b hb)),
    candidates_of_alphabet_word _ 1 initBase64Map
      (fun b hb => mapGet_initBase64Map_singleton b (hF b hb))]
  decide

set_option maxRecDepth 100000 in
/-- Over the reals the word `"ABCDEFGHIJKLMNOPQRSTUVW"`, of 23 distinct base64 characters,
is a match. -/
theorem checkBase64Encoding_upper23 :
    checkBase64Encoding realOps NewFileContentDetector (lit "ABCDEFGHIJKLMNOPQRSTUVW")
      = lit "ABCDEFGHIJKLMNOPQRSTUVW" :=
  nodup_word_flagged _ NewFileContentDetector_base64Map _ upper23_mem upper23_nodup
    (by decide)

set_option maxRecDepth 100000 in
/-- Over the reals the word `"abcdefghijklmnopqrstuvw"`, of 23 distinct base64 characters,
is a match. -/
theorem checkBase64Encoding_lower23 :
    checkBase64Encoding realOps NewFileContentDetector (lit "abcdefghijklmnopqrstuvw")
      = lit "abcdefghijklmnopqrstuvw" :=
  nodup_word_flagged _ NewFileContentDetector_base64Map _ lower23_mem lower23_nodup
    (by decide)

set_option maxRecDepth 100000 in
/-- Over the reals the scan of the content `"ABCDEFGHIJKLMNOPQRSTUVW"` returns that word. -/
theorem checkBase64EncodingForFile_upper23 :
    checkBase64EncodingForFile realOps NewFileContentDetector (lit "ABCDEFGHIJKLMNOPQRSTUVW")
      = lit "ABCDEFGHIJKLMNOPQRSTUVW" := by
  unfold checkBase64EncodingForFile
  rw [checkEachLine_word realOps _ _ upper23_mem (by decide)]
  exact checkBase64Encoding_upper23

/-! ## The claims -/

/-- C1. For every word, every `minLength ≥ 0` and every alphabet set,
`getEntropyCandidatesWithinWord` returns exactly the maximal runs of alphabet characters
of the word that are longer than `minLength`, from left to right: the result is the list
of the strings of the runs at the positions `spans`, the positions are listed from left to
right without overlap, and a position is listed if and only if it is a maximal run of
alphabet characters whose length is strictly greater than `minLength`.  The characters of
the word are the runes the `range` loop decodes. -/
theorem getEntropyCandidatesWithinWord_maximal_runs (word : GoString) (minLength : Int)
    (superSet : StringBoolMap) (hmin : 0 ≤ minLength) :
    ∃ spans : List (Nat × Nat),
      getEntropyCandidatesWithinWord word minLength superSet
        = spans.map (fun s => runesToString (slice (rangeRunes word) s.1 s.2)) ∧
      spans.Pairwise (fun a b => a.2 < b.1) ∧
      ∀ i j, (i, j) ∈ spans ↔
        (IsMaximalRun (inAlphabet superSet) (rangeRunes word) i j
          ∧ minLength < ((j - i : Nat) : Int)) := by
  refine ⟨(spansAux (inAlphabet superSet) 0 0 (rangeRunes word)).filter
    (fun s => decide (minLength < (s.2 : Int) - s.1)),
    getEntropyCandidatesWithinWord_eq_spans word minLength superSet,
    (spansAux_pairwise _ _ 0 0 (le_refl _)).filter _, ?_⟩
  intro i j
  rw [List.mem_filter, spans_isRun_iff]
  simp only [decide_eq_true_eq]
  constructor
  · rintro ⟨hrun, hlen⟩
    have hij := hrun.1
    exact ⟨⟨by omega, hrun.2⟩, by omega⟩
  · rintro ⟨hrun, hlen⟩
    have hij := hrun.1
    exact ⟨⟨by omega, hrun.2⟩, by omega⟩

set_option maxRecDepth 100000 in
/-- C1 at a concrete input: in `"AB.CDE.F"` with `minLength = 1` over the base64 alphabet,
the candidates are `"AB"` and `"CDE"`. -/
theorem getEntropyCandidatesWithinWord_maximal_runs_witness :
    (0 : Int) ≤ 1 ∧
    getEntropyCandidatesWithinWord (lit "AB.CDE.F") 1 initBase64Map = [lit "AB", lit "CDE"] ∧
    ∃ spans : List (Nat × Nat),
      getEntropyCandidatesWithinWord (lit "AB.CDE.F") 1 initBase64Map
        = spans.map (fun s => runesToString (slice (rangeRunes (lit "AB.CDE.F")) s.1 s.2)) ∧
      spans.Pairwise (fun a b => a.2 < b.1) ∧
      ∀ i j, (i, j) ∈ spans ↔
        (IsMaximalRun (inAlphabet initBase64Map) (rangeRunes (lit "AB.CDE.F")) i j
          ∧ (1 : Int) < ((j - i : Nat) : Int)) :=
  ⟨by decide, example_candidates,
    getEntropyCandidatesWithinWord_maximal_runs (lit "AB.CDE.F") 1 initBase64Map (by decide)⟩

/-- C2. With no secondary detector, `checkBase64Encoding` returns the original word when
some candidate extracted from it (minimum length 20, base64 alphabet) has an entropy over
the 65 symbols of `BASE64_CHARS` strictly greater than 4.5, and the empty string (none)
otherwise; its result is a match (not empty) if and only if there is such a candidate, and
for a word that is not empty the result is the word if and only if there is such a
candidate.  This holds for every arithmetic of the floats. -/
theorem checkBase64Encoding_eq_word_iff {F : Type} (A : FloatOps F) (word : GoString) :
    BASE64_CHARS.length = 65 ∧
    ((∃ c ∈ getEntropyCandidatesWithinWord word 20 initBase64Map,
        A.gt (getShannonEntropy A c BASE64_CHARS) (A.const 4.5) = true) →
      checkBase64Encoding A NewFileContentDetector word = word) ∧
    ((¬ ∃ c ∈ getEntropyCandidatesWithinWord word 20 initBase64Map,
        A.gt (getShannonEntropy A c BASE64_CHARS) (A.const 4.5) = true) →
      checkBase64Encoding A NewFileContentDetector word = []) ∧
    (checkBase64Encoding A NewFileContentDetector word ≠ [] ↔
      ∃ c ∈ getEntropyCandidatesWithinWord word 20 initBase64Map,
        A.gt (getShannonEntropy A c BASE64_CHARS) (A.const 4.5) = true) ∧
    (word ≠ [] →
      (checkBase64Encoding A NewFileContentDetector word = word ↔
        ∃ c ∈ getEntropyCandidatesWithinWord word 20 initBase64Map,
          A.gt (getShannonEntropy A c BASE64_CHARS) (A.const 4.5) = true)) := by
  have e1 : NewFileContentDetector.base64Map = initBase64Map := by
    simp only [NewFileContentDetector]
  have e2 : NewFileContentDetector.aggressiveDetector = none := by
    simp only [NewFileContentDetector]
  have e3 : MIN_SECRET_LENGTH = 20 := rfl
  have e4 : BASE64_ENTROPY_THRESHOLD = 4.5 := rfl
  have h1 := checkBase64Encoding_of_hit A NewFileContentDetector word
  have h2 := checkBase64Encoding_of_no_hit A NewFileContentDetector word
  rw [e1, e3, e4] at h1
  rw [e1, e2, e3, e4] at h2
  refine ⟨by decide, h1, h2, ?_, ?_⟩
  · constructor
    · intro hne
      by_contra hno
      exact hne (h2 hno)
    · intro h
      rw [h1 h]
      have h3 := word_ne_nil_of_hit A initBase64Map word
      rw [e3, e4] at h3
      exact h3 h
  · intro hw
    constructor
    · intro heq
      by_contra hno
      rw [h2 hno] at heq
      exact hw heq.symm
    · exact h1

/-- C3. `checkEachLine` returns the classification of the first word, lines taken in file
order (split on line feed) and words from left to right within a line (split on white
space), whose classification by `checkBase64Encoding` is not empty: if the lines before
`line` have no matching word, and in `line` the words before `word` do not match while
`word` does, the result is the classification of `word`, whatever follows (so of two
matching words on different lines the one on the earlier line is reported).  The result is
empty if and only if every word of every line classifies as none.  No word is empty. -/
theorem checkEachLine_first_match {F : Type} (A : FloatOps F) (fc : FileContentDetector)
    (content : GoString) :
    (∀ (pre post : List GoString) (line : GoString) (before after : List GoString)
        (word : GoString),
        stringsSplit content (lit "\n") = pre ++ line :: post →
        stringsFields line = before ++ word :: after →
        (∀ l ∈ pre, ∀ w ∈ stringsFields l, checkBase64Encoding A fc w = []) →
        (∀ w ∈ before, checkBase64Encoding A fc w = []) →
        checkBase64Encoding A fc word ≠ [] →
        checkEachLine A fc content = checkBase64Encoding A fc word) ∧
    (checkEachLine A fc content = [] ↔
      ∀ line ∈ stringsSplit content (lit "\n"), ∀ word ∈ stringsFields line,
        checkBase64Encoding A fc word = []) ∧
    (∀ line : GoString, ∀ word ∈ stringsFields line, word ≠ []) :=
  ⟨fun pre post line before after word h1 h2 h3 h4 h5 =>
      checkEachLine_first A fc content pre post line before after word h1 h2 h3 h4 h5,
    checkEachLine_eq_nil_iff A fc content,
    fun line word hw => stringsFieldsAux_ne_nil line 0 false [] word hw⟩

set_option maxRecDepth 100000 in
/-- C3 at a concrete input, over the reals and with no secondary detector: in the content
`"ok ABCDEFGHIJKLMNOPQRSTUVW\nabcdefghijklmnopqrstuvw"` both long words match, and the
result is the one on the first line. -/
theorem checkEachLine_first_match_witness :
    checkBase64Encoding realOps NewFileContentDetector (lit "abcdefghijklmnopqrstuvw")
      = lit "abcdefghijklmnopqrstuvw" ∧
    checkEachLine realOps NewFileContentDetector
        (lit "ok ABCDEFGHIJKLMNOPQRSTUVW\nabcdefghijklmnopqrstuvw")
      = lit "ABCDEFGHIJKLMNOPQRSTUVW" :=
  ⟨checkBase64Encoding_lower23,
    ((checkEachLine_first_match realOps NewFileContentDetector
        (lit "ok ABCDEFGHIJKLMNOPQRSTUVW\nabcdefghijklmnopqrstuvw")).1
      [] [lit "abcdefghijklmnopqrstuvw"] (lit "ok ABCDEFGHIJKLMNOPQRSTUVW")
      [lit "ok"] [] (lit "ABCDEFGHIJKLMNOPQRSTUVW") (by decide) (by decide)
      (by simp)
      (fun w hw => by
        rw [List.mem_singleton.1 hw]
        exact checkBase64Encoding_of_no_candidate realOps _ (by decide))
      (by rw [checkBase64Encoding_upper23]; decide)).trans checkBase64Encoding_upper23⟩

/-- C4. For an addition that the ignore policy denies, whatever its content, `Test` makes
exactly one call on the result sink, `Ignore` with the path of the addition and the reason
`<path> was ignored by .talismanignore`, and no `Fail` call: the calls made by `Test` are
the calls for the additions before it, this one call, then the calls for the additions
after it. -/
theorem Test_ignored_addition {F : Type} (A : FloatOps F) (fc : FileContentDetector)
    (ignores : Addition → Bool) (pre post : List Addition) (a : Addition)
    (result : DetectionResults) (h : ignores a = true) :
    Test A fc (pre ++ a :: post) ignores result
      = result ++ Test A fc pre ignores []
        ++ [SinkCall.Ignore a.Path (a.Path ++ lit " was ignored by .talismanignore")]
        ++ Test A fc post ignores [] := by
  rw [Test_eq_append, Test_eq_append A fc ignores pre, Test_eq_append A fc ignores post]
  have : testAddition A fc ignores [] a
      = [SinkCall.Ignore a.Path (a.Path ++ lit " was ignored by .talismanignore")] := by
    unfold testAddition
    rw [if_pos h]
    rfl
  simp [List.flatMap_append, this]

set_option maxRecDepth 100000 in
/-- C4 at a concrete input, over the reals: the addition `key.txt` is denied by the ignore
policy; the scan of its content would return a match, and the sink receives the single
call `Ignore`. -/
theorem Test_ignored_addition_witness :
    checkBase64EncodingForFile realOps NewFileContentDetector (lit "ABCDEFGHIJKLMNOPQRSTUVW")
      ≠ [] ∧
    Test realOps NewFileContentDetector
        ([] ++ { Path := lit "key.txt", Data := lit "ABCDEFGHIJKLMNOPQRSTUVW" } :: [])
        (fun _ => true) []
      = [SinkCall.Ignore (lit "key.txt") (lit "key.txt was ignored by .talismanignore")] :=
  ⟨by rw [checkBase64EncodingForFile_upper23]; decide,
    (Test_ignored_addition realOps NewFileContentDetector (fun _ => true) [] []
      { Path := lit "key.txt", Data := lit "ABCDEFGHIJKLMNOPQRSTUVW" } [] rfl).trans
      (by decide)⟩

/-- C5. `Test` calls the result sink at most once per addition, in the order of the
additions: its calls are the concatenation, in that order, of one list of at most one call
per addition; for an addition that is not ignored this list is one `Fail` call, with a
message that contains the word returned by the scan of the content, when the scan returns
a match, and is empty when the scan finds none. -/
theorem Test_sink_calls {F : Type} (A : FloatOps F) (fc : FileContentDetector)
    (additions : List Addition) (ignores : Addition → Bool) (result : DetectionResults) :
    ∃ calls : List (List SinkCall),
      Test A fc additions ignores result = result ++ calls.flatten ∧
      List.Forall₂
        (fun a cs =>
          cs.length ≤ 1 ∧
          (ignores a = false → checkBase64EncodingForFile A fc a.Data ≠ [] →
            ∃ message, cs = [SinkCall.Fail a.Path message]
              ∧ checkBase64EncodingForFile A fc a.Data <:+: message) ∧
          (ignores a = false → checkBase64EncodingForFile A fc a.Data = [] → cs = []))
        additions calls := by
  refine ⟨additions.map (testAddition A fc ignores []), ?_, ?_⟩
  · rw [Test_eq_append, List.flatMap_def]
  · rw [List.forall₂_map_right_iff]
    apply List.forall₂_same.2
    intro a _
    by_cases hi : ignores a = true
    · have : testAddition A fc ignores [] a
          = [SinkCall.Ignore a.Path (a.Path ++ lit " was ignored by .talismanignore")] := by
        unfold testAddition
        rw [if_pos hi]
        rfl
      rw [this]
      exact ⟨le_refl _, fun h => by rw [hi] at h; exact Bool.noConfusion h,
        fun h => by rw [hi] at h; exact Bool.noConfusion h⟩
    · by_cases hs : checkBase64EncodingForFile A fc a.Data = []
      · have : testAddition A fc ignores [] a = [] := by
          unfold testAddition
          rw [if_neg hi]
          simp [hs]
        rw [this]
        exact ⟨Nat.zero_le _, fun _ hne => absurd hs hne, fun _ _ => rfl⟩
      · have : testAddition A fc ignores [] a
            = [SinkCall.Fail a.Path
                (lit "Expected file to not to contain base64 encoded texts such as: "
                  ++ checkBase64EncodingForFile A fc a.Data)] := by
          unfold testAddition
          rw [if_neg hi]
          simp [hs]
        rw [this]
        exact ⟨le_refl _, fun _ _ => ⟨_, rfl, (List.suffix_append _ _).isInfix⟩,
          fun _ he => absurd he hs⟩

set_option maxRecDepth 100000 in
/-- The calls of `Test` at a concrete input, over the reals: `a.txt` holds a match and is
failed with the word in the message, `b.txt` is denied by the ignore policy and ignored,
and `c.txt` is clean and silent. -/
theorem Test_example :
    Test realOps NewFileContentDetector
        [{ Path := lit "a.txt", Data := lit "ABCDEFGHIJKLMNOPQRSTUVW" },
          { Path := lit "b.txt", Data := lit "ABCDEFGHIJKLMNOPQRSTUVW" },
          { Path := lit "c.txt", Data := lit "hello world\n" }]
        (fun a => a.Path == lit "b.txt") []
      = [SinkCall.Fail (lit "a.txt")
          (lit ("Expected file to not to contain base64 encoded texts such as: "
            ++ "ABCDEFGHIJKLMNOPQRSTUVW")),
        SinkCall.Ignore (lit "b.txt") (lit "b.txt was ignored by .talismanignore")] := by
  have hclean : checkBase64EncodingForFile realOps NewFileContentDetector
      (lit "hello world\n") = [] := by
    unfold checkBase64EncodingForFile
    rw [checkEachLine_eq_nil_iff]
    intro line _ word _
    by_cases hlen : word.length ≤ 20
    · exact checkBase64Encoding_of_no_candidate realOps word
        (candidates_nil_of_short word 20 initBase64Map
          (by exact_mod_cast le_trans (rangeRunes_length_le word) hlen))
    · exfalso
      revert hlen
      rename_i hl hw
      revert word
      revert line
      decide
  rw [Test_eq_append]
  simp only [List.flatMap_cons, List.flatMap_nil, testAddition,
    checkBase64EncodingForFile_upper23, hclean]
  decide

/-- C6. For every word of length at most 20, in bytes or in characters and whatever its
characters, `getEntropyCandidatesWithinWord` with minimum length 20 over the base64
alphabet returns the empty list, and `checkBase64Encoding` with no secondary detector
returns none. -/
theorem short_word_no_candidate {F : Type} (A : FloatOps F) (word : GoString)
    (h : word.length ≤ 20 ∨ (rangeRunes word).length ≤ 20) :
    getEntropyCandidatesWithinWord word 20 initBase64Map = [] ∧
    checkBase64Encoding A NewFileContentDetector word = [] := by
  have hlen : (rangeRunes word).length ≤ 20 := by
    rcases h with h | h
    · exact le_trans (rangeRunes_length_le word) h
    · exact h
  have hc : getEntropyCandidatesWithinWord word 20 initBase64Map = [] :=
    candidates_nil_of_short word 20 initBase64Map (by exact_mod_cast hlen)
  exact ⟨hc, checkBase64Encoding_of_no_candidate A word hc⟩

set_option maxRecDepth 100000 in
/-- C6 at a concrete input: the word `"ABCDEFGHIJKLMNOPQRST"`, of 20 characters. -/
theorem short_word_no_candidate_witness :
    (lit "ABCDEFGHIJKLMNOPQRST").length ≤ 20 ∧
    getEntropyCandidatesWithinWord (lit "ABCDEFGHIJKLMNOPQRST") 20 initBase64Map = [] ∧
    checkBase64Encoding realOps NewFileContentDetector (lit "ABCDEFGHIJKLMNOPQRST") = [] :=
  ⟨by decide, short_word_no_candidate realOps (lit "ABCDEFGHIJKLMNOPQRST") (Or.inl (by decide))⟩

/-- C7. The boundary of the candidate length is exclusive.  For every word, minimum
length and alphabet, every candidate returned is the string of a run of alphabet
characters with more than `minLength` characters (so it has more than `minLength` bytes);
over the base64 alphabet all its bytes are base64 symbols.  A word that is a single run of
exactly `minLength` alphabet characters yields no candidate, and a word that is a single
run of `minLength + 1` alphabet characters yields exactly one candidate, the word;
`"ABCDEFGHIJKLMNOPQRST"` with the minimum 20 yields none. -/
theorem candidate_length_exclusive (word : GoString) (minLength : Int)
    (superSet : StringBoolMap) :
    (∀ cand ∈ getEntropyCandidatesWithinWord word minLength superSet,
      (∃ run : List Rune, cand = runesToString run ∧
        (∀ c ∈ run, mapGet superSet (runeToString c) = true) ∧
        minLength < (run.length : Int)) ∧
      minLength < (cand.length : Int)) ∧
    (∀ cand ∈ getEntropyCandidatesWithinWord word minLength initBase64Map,
      ∀ b ∈ cand, b ∈ BASE64_CHARS) ∧
    ((∀ b ∈ word, b.val < 0x80 ∧ mapGet superSet [b] = true) →
      (word.length : Int) = minLength →
      getEntropyCandidatesWithinWord word minLength superSet = []) ∧
    ((∀ b ∈ word, b.val < 0x80 ∧ mapGet superSet [b] = true) →
      (word.length : Int) = minLength + 1 →
      getEntropyCandidatesWithinWord word minLength superSet = [word]) ∧
    getEntropyCandidatesWithinWord (lit "ABCDEFGHIJKLMNOPQRST") 20 initBase64Map = [] := by
  refine ⟨?_, ?_, ?_, ?_, ?_⟩
  · intro cand hcand
    obtain ⟨run, hrun, hall, hlen⟩ := mem_candidates word minLength superSet cand hcand
    refine ⟨⟨run, hrun, hall, hlen⟩, ?_⟩
    have := runesToString_length_ge run
    rw [hrun]
    omega
  · intro cand hcand b hb
    obtain ⟨run, hrun, hall, _⟩ := mem_candidates word minLength initBase64Map cand hcand
    rw [hrun] at hb
    unfold runesToString at hb
    obtain ⟨c, hc, hbc⟩ := List.mem_flatMap.1 hb
    obtain ⟨b', hb', rfl⟩ := (inAlphabet_initBase64Map c).1 (hall c hc)
    rw [runeToString_ascii b' (BASE64_CHARS_ascii b' hb')] at hbc
    rw [List.mem_singleton.1 hbc]
    exact hb'
  · intro hw hlen
    rw [candidates_of_alphabet_word word minLength superSet hw, if_neg (by omega)]
  · intro hw hlen
    rw [candidates_of_alphabet_word word minLength superSet hw, if_pos (by omega)]
  · exact candidates_nil_of_short _ 20 initBase64Map (by decide)

set_option maxRecDepth 100000 in
/-- C7 at concrete inputs: over the base64 alphabet with the minimum 20, the word
`"ABCDEFGHIJKLMNOPQRST"` (20 symbols) yields no candidate and the word
`"ABCDEFGHIJKLMNOPQRSTU"` (21 symbols) yields itself. -/
theorem candidate_length_exclusive_witness :
    getEntropyCandidatesWithinWord (lit "ABCDEFGHIJKLMNOPQRST") 20 initBase64Map = [] ∧
    getEntropyCandidatesWithinWord (lit "ABCDEFGHIJKLMNOPQRSTU") 20 initBase64Map
      = [lit "ABCDEFGHIJKLMNOPQRSTU"] ∧
    (∀ cand ∈ getEntropyCandidatesWithinWord (lit "ABCDEFGHIJKLMNOPQRSTU") 20 initBase64Map,
      ∀ b ∈ cand, b ∈ BASE64_CHARS) :=
  ⟨(candidate_length_exclusive (lit "ABCDEFGHIJKLMNOPQRST") 20 initBase64Map).2.2.1
      (fun b hb => mapGet_initBase64Map_singleton b (upper20_mem b hb)) (by decide),
    (candidate_length_exclusive (lit "ABCDEFGHIJKLMNOPQRSTU") 20 initBase64Map).2.2.2.1
      (fun b hb => mapGet_initBase64Map_singleton b (upper21_mem b hb)) (by decide),
    (candidate_length_exclusive (lit "ABCDEFGHIJKLMNOPQRSTU") 20 initBase64Map).2.1⟩

/-- C8. With a secondary detector `aggressiveTest` configured: if some extracted candidate
has an entropy strictly greater than 4.5, `checkBase64Encoding` returns the word, whatever
the secondary detector is; otherwise it returns what the secondary detector returns for
the whole word. -/
theorem checkBase64Encoding_aggressive {F : Type} (A : FloatOps F)
    (aggressiveTest : GoString → GoString) (word : GoString) :
    ((∃ c ∈ getEntropyCandidatesWithinWord word 20 initBase64Map,
        A.gt (getShannonEntropy A c BASE64_CHARS) (A.const 4.5) = true) →
      ∀ other : GoString → GoString,
        checkBase64Encoding A (AggressiveMode NewFileContentDetector other) word = word) ∧
    ((¬ ∃ c ∈ getEntropyCandidatesWithinWord word 20 initBase64Map,
        A.gt (getShannonEntropy A c BASE64_CHARS) (A.const 4.5) = true) →
      checkBase64Encoding A (AggressiveMode NewFileContentDetector aggressiveTest) word
        = aggressiveTest word) := by
  have e1 : ∀ t, (AggressiveMode NewFileContentDetector t).base64Map = initBase64Map := by
    intro t
    simp only [AggressiveMode, NewFileContentDetector]
  have e2 : ∀ t, (AggressiveMode NewFileContentDetector t).aggressiveDetector = some t := by
    intro t
    simp only [AggressiveMode]
  have e3 : MIN_SECRET_LENGTH = 20 := rfl
  have e4 : BASE64_ENTROPY_THRESHOLD = 4.5 := rfl
  constructor
  · intro h other
    have h1 := checkBase64Encoding_of_hit A (AggressiveMode NewFileContentDetector other) word
    rw [e1, e3, e4] at h1
    exact h1 h
  · intro h
    have h2 := checkBase64Encoding_of_no_hit A
      (AggressiveMode NewFileContentDetector aggressiveTest) word
    rw [e1, e2, e3, e4] at h2
    exact h2 h

/-- C9. For every string `s` made only of characters of the base64 alphabet,
`getShannonEntropy s BASE64_CHARS`, computed over the real numbers, is the Shannon entropy
of `s` in bits per symbol: minus the sum over the distinct characters `c` of `s` of
`f c * log2 (f c)`, with `f c` the number of occurrences of `c` in `s` divided by the length
of `s`.  It is 0 for the empty string. -/
theorem getShannonEntropy_eq_shannonEntropy (s : GoString) (h : ∀ b ∈ s, b ∈ BASE64_CHARS) :
    getShannonEntropy realOps s BASE64_CHARS
      = - Finset.sum s.toFinset
          (fun c => ((s.count c : ℝ) / s.length) * Real.logb 2 ((s.count c : ℝ) / s.length)) ∧
    getShannonEntropy realOps s BASE64_CHARS = shannonEntropy s ∧
    getShannonEntropy realOps [] BASE64_CHARS = 0 :=
  ⟨getShannonEntropy_eq_shannonEntropy_aux s h, getShannonEntropy_eq_shannonEntropy_aux s h,
    getShannonEntropy_nil⟩

set_option maxRecDepth 100000 in
/-- C9 at a concrete input: the string `"AAB+"`. -/
theorem getShannonEntropy_eq_shannonEntropy_witness :
    (∀ b ∈ lit "AAB+", b ∈ BASE64_CHARS) ∧
    getShannonEntropy realOps (lit "AAB+") BASE64_CHARS = shannonEntropy (lit "AAB+") :=
  ⟨by decide, (getShannonEntropy_eq_shannonEntropy (lit "AAB+") (by decide)).2.1⟩

/-- C10. For every word that consists of one character of the base64 alphabet repeated `n`
times with `n > 20`, the word is its single candidate, the entropy of that candidate over
the reals is exactly 0, and `checkBase64Encoding` with no secondary detector returns
none. -/
theorem repeated_char_entropy_zero (c : Byte) (n : Nat) (hc : c ∈ BASE64_CHARS)
    (hn : 20 < n) :
    getEntropyCandidatesWithinWord (List.replicate n c) 20 initBase64Map
      = [List.replicate n c] ∧
    getShannonEntropy realOps (List.replicate n c) BASE64_CHARS = 0 ∧
    checkBase64Encoding realOps NewFileContentDetector (List.replicate n c) = [] := by
  have hmem : ∀ b ∈ List.replicate n c, b ∈ BASE64_CHARS := by
    intro b hb
    rw [(List.mem_replicate.1 hb).2]
    exact hc
  have hcand : getEntropyCandidatesWithinWord (List.replicate n c) 20 initBase64Map
      = [List.replicate n c] := by
    rw [candidates_of_alphabet_word _ 20 initBase64Map
      (fun b hb => mapGet_initBase64Map_singleton b (hmem b hb)), if_pos]
    rw [List.length_replicate]
    exact_mod_cast hn
  have hent : getShannonEntropy realOps (List.replicate n c) BASE64_CHARS = 0 := by
    rw [getShannonEntropy_eq_shannonEntropy_aux _ hmem, shannonEntropy_replicate c n (by omega)]
  refine ⟨hcand, hent, ?_⟩
  have h2 := checkBase64Encoding_of_no_hit realOps NewFileContentDetector (List.replicate n c)
  have e3 : MIN_SECRET_LENGTH = 20 := rfl
  rw [NewFileContentDetector_base64Map, NewFileContentDetector_aggressiveDetector, e3, hcand]
    at h2
  apply h2
  rintro ⟨c', hc', hgt⟩
  rw [List.mem_singleton.1 hc', realOps_gt_iff, hent] at hgt
  have hthr : realOps.const BASE64_ENTROPY_THRESHOLD = (9 / 2 : ℝ) := by
    simp [realOps, BASE64_ENTROPY_THRESHOLD]
    norm_num
  rw [hthr] at hgt
  linarith

set_option maxRecDepth 100000 in
/-- C10 at a concrete input: the character `A` repeated 21 times. -/
theorem repeated_char_entropy_zero_witness :
    (65 : Byte) ∈ BASE64_CHARS ∧ 20 < 21 ∧
    getEntropyCandidatesWithinWord (List.replicate 21 (65 : Byte)) 20 initBase64Map
      = [List.replicate 21 65] ∧
    getShannonEntropy realOps (List.replicate 21 (65 : Byte)) BASE64_CHARS = 0 ∧
    checkBase64Encoding realOps NewFileContentDetector (List.replicate 21 (65 : Byte)) = [] :=
  ⟨by decide, by decide, repeated_char_entropy_zero 65 21 (by decide) (by decide)⟩

/-- C11. Runs are never merged across a separator: for all strings `a` and `b`, every
character `sep` that is not in the alphabet and every minimum length, the candidates of
`a ++ sep ++ b` are the candidates of `a` followed by the candidates of `b`.  In
particular, when `a` and `b` each have length at most `minLength`, the word
`a ++ sep ++ b` yields no candidate, whatever `length a + length b` is, and with the
base64 alphabet and the minimum 20 it is not matched by the entropy path. -/
theorem runs_not_merged {F : Type} (A : FloatOps F) (a b : GoString) (sep : Rune)
    (minLength : Int) (superSet : StringBoolMap) (hsep : inAlphabet superSet sep = false) :
    getEntropyCandidatesWithinWord (a ++ runeToString sep ++ b) minLength superSet
      = getEntropyCandidatesWithinWord a minLength superSet
        ++ getEntropyCandidatesWithinWord b minLength superSet ∧
    ((a.length : Int) ≤ minLength → (b.length : Int) ≤ minLength →
      getEntropyCandidatesWithinWord (a ++ runeToString sep ++ b) minLength superSet = []) ∧
    (∀ (a' b' : GoString) (sep' : Rune), inAlphabet initBase64Map sep' = false →
      a'.length ≤ 20 → b'.length ≤ 20 →
      getEntropyCandidatesWithinWord (a' ++ runeToString sep' ++ b') 20 initBase64Map = [] ∧
      checkBase64Encoding A NewFileContentDetector (a' ++ runeToString sep' ++ b') = []) := by
  refine ⟨candidates_append_sep a b sep minLength superSet hsep, ?_, ?_⟩
  · intro ha hb
    rw [candidates_append_sep a b sep minLength superSet hsep,
      candidates_nil_of_short_bytes a minLength superSet ha,
      candidates_nil_of_short_bytes b minLength superSet hb]
    rfl
  · intro a' b' sep' hsep' ha hb
    have hc : getEntropyCandidatesWithinWord (a' ++ runeToString sep' ++ b') 20 initBase64Map
        = [] := by
      rw [candidates_append_sep a' b' sep' 20 initBase64Map hsep',
        candidates_nil_of_short_bytes a' 20 initBase64Map (by exact_mod_cast ha),
        candidates_nil_of_short_bytes b' 20 initBase64Map (by exact_mod_cast hb)]
      rfl
    exact ⟨hc, checkBase64Encoding_of_no_candidate A _ hc⟩

set_option maxRecDepth 100000 in
/-- C11 at a concrete input: `.` is not in the base64 alphabet, and the word
`ABCDEFGHIJKLMNOP.QRSTUVWXYZabcdef`, two runs of 16 characters, yields no candidate with the
minimum 20 and is not matched. -/
theorem runs_not_merged_witness :
    inAlphabet initBase64Map 46 = false ∧
    runeToString 46 = lit "." ∧
    getEntropyCandidatesWithinWord
        (lit "ABCDEFGHIJKLMNOP" ++ runeToString 46 ++ lit "QRSTUVWXYZabcdef") 20 initBase64Map
      = [] ∧
    checkBase64Encoding realOps NewFileContentDetector
        (lit "ABCDEFGHIJKLMNOP" ++ runeToString 46 ++ lit "QRSTUVWXYZabcdef") = [] :=
  ⟨dot_not_in_alphabet, by decide,
    (runs_not_merged realOps (lit "ABCDEFGHIJKLMNOP") (lit "QRSTUVWXYZabcdef") 46 20
      initBase64Map dot_not_in_alphabet).2.1 (by decide) (by decide),
    ((runs_not_merged realOps (lit "ABCDEFGHIJKLMNOP") (lit "QRSTUVWXYZabcdef") 46 20
      initBase64Map dot_not_in_alphabet).2.2 (lit "ABCDEFGHIJKLMNOP")
      (lit "QRSTUVWXYZabcdef") 46 dot_not_in_alphabet (by decide) (by decide)).2⟩

set_option maxRecDepth 100000 in
/-- C12 as stated fails: the word `ABCDEFGHIJKLMNOPQRSTU` consists of 21 pairwise distinct
characters of the base64 alphabet, and over the reals its entropy is not above 4.5,
`checkBase64Encoding` returns none, and the scan of the file `a.txt` that consists of it
makes no `Fail` call. -/
theorem distinct_21_counterexample :
    (∀ b ∈ lit "ABCDEFGHIJKLMNOPQRSTU", b ∈ BASE64_CHARS) ∧
    (lit "ABCDEFGHIJKLMNOPQRSTU").Nodup ∧
    (lit "ABCDEFGHIJKLMNOPQRSTU").length = 21 ∧
    getEntropyCandidatesWithinWord (lit "ABCDEFGHIJKLMNOPQRSTU") 20 initBase64Map
      = [lit "ABCDEFGHIJKLMNOPQRSTU"] ∧
    realOps.gt (getShannonEntropy realOps (lit "ABCDEFGHIJKLMNOPQRSTU") BASE64_CHARS)
      (realOps.const 4.5) = false ∧
    checkBase64Encoding realOps NewFileContentDetector (lit "ABCDEFGHIJKLMNOPQRSTU") = [] ∧
    Test realOps NewFileContentDetector
      [{ Path := lit "a.txt", Data := lit "ABCDEFGHIJKLMNOPQRSTU" }] (fun _ => false) [] = []
    := by
  have hmem : ∀ b ∈ lit "ABCDEFGHIJKLMNOPQRSTU", b ∈ BASE64_CHARS := upper21_mem
  have hcand : getEntropyCandidatesWithinWord (lit "ABCDEFGHIJKLMNOPQRSTU") 20 initBase64Map
      = [lit "ABCDEFGHIJKLMNOPQRSTU"] :=
    (nodup_word_entropy _ upper21_mem upper21_nodup (by decide)).1
  have e4 : BASE64_ENTROPY_THRESHOLD = 4.5 := rfl
  have hgt : realOps.gt
      (getShannonEntropy realOps (lit "ABCDEFGHIJKLMNOPQRSTU") BASE64_CHARS)
      (realOps.const BASE64_ENTROPY_THRESHOLD) = false := by
    rw [entropy_gt_threshold_iff]
    decide
  have hcheck : checkBase64Encoding realOps NewFileContentDetector
      (lit "ABCDEFGHIJKLMNOPQRSTU") = [] := by
    have h2 := checkBase64Encoding_of_no_hit realOps NewFileContentDetector
      (lit "ABCDEFGHIJKLMNOPQRSTU")
    have e3 : MIN_SECRET_LENGTH = 20 := rfl
    rw [NewFileContentDetector_base64Map, NewFileContentDetector_aggressiveDetector, e3,
      hcand] at h2
    apply h2
    rintro ⟨c, hc, hg⟩
    rw [List.mem_singleton.1 hc, hgt] at hg
    exact Bool.noConfusion hg
  refine ⟨hmem, upper21_nodup, by decide, hcand, by rw [← e4]; exact hgt, hcheck, ?_⟩
  rw [Test_single]
  apply testAddition_clean _ _ _ _ rfl
  unfold checkBase64EncodingForFile
  rw [checkEachLine_word realOps _ _ hmem (by decide)]
  exact hcheck

/-- C12, amended. A word of 21 pairwise distinct characters of the base64 alphabet is not
flagged: it is its own candidate, the entropy of that candidate over the reals is `log2 21`,
below 4.5 (likewise `log2 22` for 22 characters), and in every arithmetic that does not
compare the entropy of the word above the threshold, as the reals do not,
`checkBase64Encoding` with no secondary detector returns none and the scan of a file that
consists of the word makes no call on the sink.  The conclusion of the claim holds from 23
pairwise distinct characters on: over the reals the entropy is `log2` of the length and
exceeds 4.5, and in every arithmetic that compares the entropy of the word above the
threshold, as the reals do, `checkBase64Encoding` returns the original word and the scan
of a file that contains the word as one of its words yields a `Fail`, whose message
contains that word when no earlier word of the file is matched in that same arithmetic. -/
theorem distinct_21_not_flagged_23_flagged (word : GoString)
    (hmem : ∀ b ∈ word, b ∈ BASE64_CHARS) (hnd : word.Nodup) :
    ((21 ≤ word.length ∧ word.length ≤ 22) →
      getEntropyCandidatesWithinWord word 20 initBase64Map = [word] ∧
      getShannonEntropy realOps word BASE64_CHARS = Real.logb 2 word.length ∧
      Real.logb 2 word.length < 4.5 ∧
      realOps.gt (getShannonEntropy realOps word BASE64_CHARS) (realOps.const 4.5) = false ∧
      checkBase64Encoding realOps NewFileContentDetector word = [] ∧
      (∀ (F : Type) (A : FloatOps F),
        A.gt (getShannonEntropy A word BASE64_CHARS) (A.const BASE64_ENTROPY_THRESHOLD)
          = false →
        checkBase64Encoding A NewFileContentDetector word = [] ∧
        (∀ path : GoString,
          Test A NewFileContentDetector [{ Path := path, Data := word }] (fun _ => false) []
            = []))) ∧
    (23 ≤ word.length →
      getEntropyCandidatesWithinWord word 20 initBase64Map = [word] ∧
      getShannonEntropy realOps word BASE64_CHARS = Real.logb 2 word.length ∧
      4.5 < Real.logb 2 word.length ∧
      realOps.gt (getShannonEntropy realOps word BASE64_CHARS) (realOps.const 4.5) = true ∧
      checkBase64Encoding realOps NewFileContentDetector word = word ∧
      (∀ (F : Type) (A : FloatOps F),
        A.gt (getShannonEntropy A word BASE64_CHARS) (A.const BASE64_ENTROPY_THRESHOLD)
          = true →
        checkBase64Encoding A NewFileContentDetector word = word ∧
        (∀ (a : Addition) (ignores : Addition → Bool) (line : GoString), ignores a = false →
          line ∈ stringsSplit a.Data (lit "\n") → word ∈ stringsFields line →
          ∃ message, Test A NewFileContentDetector [a] ignores []
            = [SinkCall.Fail a.Path message]) ∧
        (∀ (a : Addition) (ignores : Addition → Bool) (pre post : List GoString)
          (line : GoString) (before after : List GoString), ignores a = false →
          stringsSplit a.Data (lit "\n") = pre ++ line :: post →
          stringsFields line = before ++ word :: after →
          (∀ l ∈ pre, ∀ w ∈ stringsFields l,
            checkBase64Encoding A NewFileContentDetector w = []) →
          (∀ w ∈ before, checkBase64Encoding A NewFileContentDetector w = []) →
          Test A NewFileContentDetector [a] ignores []
              = [SinkCall.Fail a.Path
                  (lit "Expected file to not to contain base64 encoded texts such as: "
                    ++ word)] ∧
            word <:+: (lit "Expected file to not to contain base64 encoded texts such as: "
              ++ word)))) := by
  have h45 : (4.5 : ℝ) = 9 / 2 := by norm_num
  have e3 : MIN_SECRET_LENGTH = 20 := rfl
  have e4 : BASE64_ENTROPY_THRESHOLD = 4.5 := rfl
  constructor
  · rintro ⟨h21, h22⟩
    obtain ⟨hc, he⟩ := nodup_word_entropy word hmem hnd (by omega)
    have hlog := logb_lt_nine_halves word.length (by omega) h22
    have hno := nodup_word_not_hit word hmem hnd (by omega) h22
    have hcheck : checkBase64Encoding realOps NewFileContentDetector word = [] := by
      have h2 := checkBase64Encoding_of_no_hit realOps NewFileContentDetector word
      rw [NewFileContentDetector_base64Map, NewFileContentDetector_aggressiveDetector] at h2
      exact h2 hno
    have hne : word ≠ [] := by
      intro h
      rw [h] at h21
      simp at h21
    refine ⟨hc, he, by rw [h45]; exact hlog, ?_, hcheck, ?_⟩
    · rw [← e4]
      cases hg : realOps.gt (getShannonEntropy realOps word BASE64_CHARS)
          (realOps.const BASE64_ENTROPY_THRESHOLD)
      · rfl
      · rw [realOps_gt_iff, realOps_threshold, he] at hg
        linarith
    · intro F A hA
      have hcheckA : checkBase64Encoding A NewFileContentDetector word = [] := by
        have h2 := checkBase64Encoding_of_no_hit A NewFileContentDetector word
        rw [NewFileContentDetector_base64Map, NewFileContentDetector_aggressiveDetector, e3,
          hc] at h2
        apply h2
        rintro ⟨c, hcm, hg⟩
        rw [List.mem_singleton.1 hcm, hA] at hg
        exact Bool.noConfusion hg
      refine ⟨hcheckA, ?_⟩
      intro path
      rw [Test_single]
      apply testAddition_clean _ _ _ _ rfl
      unfold checkBase64EncodingForFile
      rw [checkEachLine_word A _ word hmem hne]
      exact hcheckA
  · intro h23
    obtain ⟨hc, he⟩ := nodup_word_entropy word hmem hnd (by omega)
    have hlog := nine_halves_lt_logb word.length h23
    have hcheck := nodup_word_flagged _ NewFileContentDetector_base64Map word hmem hnd h23
    have hne : word ≠ [] := by
      intro h
      rw [h] at h23
      simp at h23
    refine ⟨hc, he, by rw [h45]; exact hlog, ?_, hcheck, ?_⟩
    · rw [← e4, realOps_gt_iff, realOps_threshold, he]
      exact hlog
    · intro F A hA
      have hcheckA : checkBase64Encoding A NewFileContentDetector word = word := by
        apply checkBase64Encoding_of_hit
        rw [NewFileContentDetector_base64Map, e3, hc]
        exact ⟨word, List.mem_singleton.2 rfl, hA⟩
      have hcne : checkBase64Encoding A NewFileContentDetector word ≠ [] := by
        rw [hcheckA]
        exact hne
      refine ⟨hcheckA, ?_, ?_⟩
      · intro a ignores line hi hline hword
        have hscan : checkBase64EncodingForFile A NewFileContentDetector a.Data ≠ [] :=
          checkEachLine_ne_nil_of_word A _ a.Data line word hline hword hcne
        exact ⟨_, by rw [Test_single, testAddition_flagged _ _ _ _ hi hscan]⟩
      · intro a ignores pre post line before after hi hsplit hfields hpre hbefore
        have hscan : checkBase64EncodingForFile A NewFileContentDetector a.Data = word := by
          unfold checkBase64EncodingForFile
          rw [checkEachLine_first A _ a.Data pre post line before after word hsplit hfields
            hpre hbefore hcne, hcheckA]
        refine ⟨?_, (List.suffix_append _ _).isInfix⟩
        rw [Test_single, testAddition_flagged _ _ _ _ hi (by rw [hscan]; exact hne), hscan]

set_option maxRecDepth 100000 in
/-- C12, amended, at concrete inputs, over the reals: the word `ABCDEFGHIJKLMNOPQRSTU` (21
distinct characters) is not flagged, and the file `a.txt` that consists of the word
`ABCDEFGHIJKLMNOPQRSTUVW` (23 distinct characters) is failed with a message that ends
with the word. -/
theorem distinct_21_not_flagged_23_flagged_witness :
    checkBase64Encoding realOps NewFileContentDetector (lit "ABCDEFGHIJKLMNOPQRSTU") = [] ∧
    Test realOps NewFileContentDetector
        [{ Path := lit "a.txt", Data := lit "ABCDEFGHIJKLMNOPQRSTU" }] (fun _ => false) []
      = [] ∧
    Test realOps NewFileContentDetector
        [{ Path := lit "a.txt", Data := lit "ABCDEFGHIJKLMNOPQRSTUVW" }] (fun _ => false) []
      = [SinkCall.Fail (lit "a.txt")
          (lit "Expected file to not to contain base64 encoded texts such as: "
            ++ lit "ABCDEFGHIJKLMNOPQRSTUVW")] :=
  ⟨((distinct_21_not_flagged_23_flagged (lit "ABCDEFGHIJKLMNOPQRSTU") upper21_mem
      upper21_nodup).1 ⟨by decide, by decide⟩).2.2.2.2.1,
    ((((distinct_21_not_flagged_23_flagged (lit "ABCDEFGHIJKLMNOPQRSTU") upper21_mem
      upper21_nodup).1 ⟨by decide, by decide⟩).2.2.2.2.2 ℝ realOps
      ((distinct_21_not_flagged_23_flagged (lit "ABCDEFGHIJKLMNOPQRSTU") upper21_mem
        upper21_nodup).1 ⟨by decide, by decide⟩).2.2.2.1).2 (lit "a.txt")),
    ((((distinct_21_not_flagged_23_flagged (lit "ABCDEFGHIJKLMNOPQRSTUVW") upper23_mem
      upper23_nodup).2 (by decide)).2.2.2.2.2 ℝ realOps
      ((distinct_21_not_flagged_23_flagged (lit "ABCDEFGHIJKLMNOPQRSTUVW") upper23_mem
        upper23_nodup).2 (by decide)).2.2.2.1).2.2
      { Path := lit "a.txt", Data := lit "ABCDEFGHIJKLMNOPQRSTUVW" } (fun _ => false)
      [] [] (lit "ABCDEFGHIJKLMNOPQRSTUVW") [] [] rfl (by decide) (by decide) (by simp)
      (by simp)).1⟩

/-- C13 as stated fails: for the word `QWxhZGRpbjpvcGVuIHNlc2FtZQo=` it is not true that
the word is its single candidate, that the entropy of the word exceeds 4.5 and that
`checkBase64Encoding` returns the word: over the reals the entropy is not above 4.5. -/
theorem aladdin_counterexample :
    ¬ (getEntropyCandidatesWithinWord (lit "QWxhZGRpbjpvcGVuIHNlc2FtZQo=") 20 initBase64Map
        = [lit "QWxhZGRpbjpvcGVuIHNlc2FtZQo="] ∧
      realOps.gt
        (getShannonEntropy realOps (lit "QWxhZGRpbjpvcGVuIHNlc2FtZQo=") BASE64_CHARS)
        (realOps.const 4.5) = true ∧
      checkBase64Encoding realOps NewFileContentDetector (lit "QWxhZGRpbjpvcGVuIHNlc2FtZQo=")
        = lit "QWxhZGRpbjpvcGVuIHNlc2FtZQo=") := by
  rintro ⟨_, hgt, _⟩
  have e4 : BASE64_ENTROPY_THRESHOLD = 4.5 := rfl
  rw [← e4, aladdin_not_above] at hgt
  exact Bool.noConfusion hgt

set_option maxRecDepth 100000 in
/-- C13, amended. The word `QWxhZGRpbjpvcGVuIHNlc2FtZQo=` has 28 characters, all of the
base64 alphabet, and is its own single candidate; its entropy against `BASE64_CHARS`,
over the reals, does not exceed 4.5, and `checkBase64Encoding` with no secondary detector
returns none (with a secondary detector, what that detector returns for the word). -/
theorem aladdin_not_flagged :
    (lit "QWxhZGRpbjpvcGVuIHNlc2FtZQo=").length = 28 ∧
    (∀ b ∈ lit "QWxhZGRpbjpvcGVuIHNlc2FtZQo=", b ∈ BASE64_CHARS) ∧
    getEntropyCandidatesWithinWord (lit "QWxhZGRpbjpvcGVuIHNlc2FtZQo=") 20 initBase64Map
      = [lit "QWxhZGRpbjpvcGVuIHNlc2FtZQo="] ∧
    getShannonEntropy realOps (lit "QWxhZGRpbjpvcGVuIHNlc2FtZQo=") BASE64_CHARS ≤ 4.5 ∧
    checkBase64Encoding realOps NewFileContentDetector (lit "QWxhZGRpbjpvcGVuIHNlc2FtZQo=")
      = [] ∧
    (∀ aggressiveTest : GoString → GoString,
      checkBase64Encoding realOps (AggressiveMode NewFileContentDetector aggressiveTest)
          (lit "QWxhZGRpbjpvcGVuIHNlc2FtZQo=")
        = aggressiveTest (lit "QWxhZGRpbjpvcGVuIHNlc2FtZQo=")) := by
  have hno : ∀ fc : FileContentDetector, fc.base64Map = initBase64Map →
      ¬ ∃ c ∈ getEntropyCandidatesWithinWord (lit "QWxhZGRpbjpvcGVuIHNlc2FtZQo=")
          MIN_SECRET_LENGTH fc.base64Map,
        realOps.gt (getShannonEntropy realOps c BASE64_CHARS)
          (realOps.const BASE64_ENTROPY_THRESHOLD) = true := by
    intro fc hfc
    have e3 : MIN_SECRET_LENGTH = 20 := rfl
    rw [hfc, e3, aladdin_candidates]
    rintro ⟨c, hc, hgt⟩
    rw [List.mem_singleton.1 hc, aladdin_not_above] at hgt
    exact Bool.noConfusion hgt
  refine ⟨by decide, aladdin_mem, aladdin_candidates, ?_, ?_, ?_⟩
  · have h := aladdin_not_above
    have h45 : (4.5 : ℝ) = 9 / 2 := by norm_num
    rw [h45]
    by_contra hcon
    push_neg at hcon
    have : realOps.gt
        (getShannonEntropy realOps (lit "QWxhZGRpbjpvcGVuIHNlc2FtZQo=") BASE64_CHARS)
        (realOps.const BASE64_ENTROPY_THRESHOLD) = true := by
      rw [realOps_gt_iff, realOps_threshold]
      exact hcon
    rw [h] at this
    exact Bool.noConfusion this
  · have h2 := checkBase64Encoding_of_no_hit realOps NewFileContentDetector
      (lit "QWxhZGRpbjpvcGVuIHNlc2FtZQo=") (hno _ NewFileContentDetector_base64Map)
    rw [NewFileContentDetector_aggressiveDetector] at h2
    exact h2
  · intro t
    have h2 := checkBase64Encoding_of_no_hit realOps (AggressiveMode NewFileContentDetector t)
      (lit "QWxhZGRpbjpvcGVuIHNlc2FtZQo=") (hno _ (AggressiveMode_base64Map t))
    rw [AggressiveMode_aggressiveDetector] at h2
    exact h2

set_option maxRecDepth 100000 in
/-- C14 as stated fails: over the reals and with no secondary detector, the addition with
the path `a.txt` and the content `ABCDEFGHIJKLMNOPQRSTUVW` is flagged, and the message of
the `Fail` call does not contain the path. -/
theorem Test_fail_message_counterexample :
    Test realOps NewFileContentDetector
        [{ Path := lit "a.txt", Data := lit "ABCDEFGHIJKLMNOPQRSTUVW" }] (fun _ => false) []
      = [SinkCall.Fail (lit "a.txt")
          (lit ("Expected file to not to contain base64 encoded texts such as: "
            ++ "ABCDEFGHIJKLMNOPQRSTUVW"))] ∧
    ¬ (lit "a.txt" <:+:
        lit ("Expected file to not to contain base64 encoded texts such as: "
          ++ "ABCDEFGHIJKLMNOPQRSTUVW")) := by
  constructor
  · rw [Test_eq_append]
    simp only [List.flatMap_cons, List.flatMap_nil, testAddition,
      checkBase64EncodingForFile_upper23]
    decide
  · intro h
    have hmem : (46 : Byte) ∈ lit "a.txt" := by decide
    have := h.subset hmem
    revert this
    decide

/-- C14, amended. For every flagged addition (not ignored, the scan returns a match), the
one call that `Test` makes for it is `Fail` with the path of the addition as its first
argument and, as its message, the fixed text `Expected file to not to contain base64
encoded texts such as: ` followed by the matched word: the message embeds the word, and
the path is passed beside the message, not inside it. -/
theorem Test_fail_message {F : Type} (A : FloatOps F) (fc : FileContentDetector)
    (ignores : Addition → Bool) (pre post : List Addition) (a : Addition)
    (result : DetectionResults) (h1 : ignores a = false)
    (h2 : checkBase64EncodingForFile A fc a.Data ≠ []) :
    Test A fc (pre ++ a :: post) ignores result
      = result ++ Test A fc pre ignores []
        ++ [SinkCall.Fail a.Path
            (lit "Expected file to not to contain base64 encoded texts such as: "
              ++ checkBase64EncodingForFile A fc a.Data)]
        ++ Test A fc post ignores [] ∧
    checkBase64EncodingForFile A fc a.Data
      <:+: (lit "Expected file to not to contain base64 encoded texts such as: "
        ++ checkBase64EncodingForFile A fc a.Data) := by
  refine ⟨?_, (List.suffix_append _ _).isInfix⟩
  rw [Test_eq_append, Test_eq_append A fc ignores pre, Test_eq_append A fc ignores post]
  simp [List.flatMap_append, testAddition_flagged A fc ignores a h1 h2]

set_option maxRecDepth 100000 in
/-- C14, amended, at a concrete input: the flagged addition `a.txt`. -/
theorem Test_fail_message_witness :
    Test realOps NewFileContentDetector
        ([] ++ { Path := lit "a.txt", Data := lit "ABCDEFGHIJKLMNOPQRSTUVW" } :: [])
        (fun _ => false) []
      = [SinkCall.Fail (lit "a.txt")
          (lit "Expected file to not to contain base64 encoded texts such as: "
            ++ lit "ABCDEFGHIJKLMNOPQRSTUVW")] :=
  ((Test_fail_message realOps NewFileContentDetector (fun _ => false) [] []
      { Path := lit "a.txt", Data := lit "ABCDEFGHIJKLMNOPQRSTUVW" } [] rfl
      (by rw [checkBase64EncodingForFile_upper23]; decide)).1).trans
    (by
      rw [checkBase64EncodingForFile_upper23]
      rfl)

/-- C15. The alphabet set built by `initBase64Map` from `BASE64_CHARS` has exactly 65
members, all distinct and all with the value `true`.  A string is a member if and only if
it is the single byte of one of `A`-`Z`, `a`-`z`, `0`-`9`, `+`, `/` or `=`; so a character
is in the alphabet exactly when it is one of these, and no character outside ASCII is. -/
theorem initBase64Map_members :
    initBase64Map.length = 65 ∧
    (initBase64Map.map Prod.fst).Nodup ∧
    (∀ e ∈ initBase64Map, e.2 = true) ∧
    (∀ k : GoString, mapGet initBase64Map k = true ↔
      ∃ b : Byte, k = [b] ∧
        ((65 ≤ b.val ∧ b.val ≤ 90) ∨ (97 ≤ b.val ∧ b.val ≤ 122) ∨ (48 ≤ b.val ∧ b.val ≤ 57)
          ∨ b.val = 43 ∨ b.val = 47 ∨ b.val = 61)) ∧
    (∀ c : Rune, inAlphabet initBase64Map c = true ↔
      ((65 ≤ c ∧ c ≤ 90) ∨ (97 ≤ c ∧ c ≤ 122) ∨ (48 ≤ c ∧ c ≤ 57)
        ∨ c = 43 ∨ c = 47 ∨ c = 61)) ∧
    (∀ c : Rune, 0x80 ≤ c → inAlphabet initBase64Map c = false) := by
  have hB : ∀ b : Byte, b ∈ BASE64_CHARS ↔
      ((65 ≤ b.val ∧ b.val ≤ 90) ∨ (97 ≤ b.val ∧ b.val ≤ 122) ∨ (48 ≤ b.val ∧ b.val ≤ 57)
        ∨ b.val = 43 ∨ b.val = 47 ∨ b.val = 61) := by
    intro b
    constructor
    · exact BASE64_CHARS_in_ranges b
    · intro h
      have hn := ranges_in_BASE64_CHARS b.val (List.mem_range.2 b.isLt) h
      obtain ⟨b', hb', hv⟩ := List.mem_map.1 hn
      rw [← Fin.ext hv]
      exact hb'
  have hR : ∀ c : Nat, inAlphabet initBase64Map c = true ↔
      ((65 ≤ c ∧ c ≤ 90) ∨ (97 ≤ c ∧ c ≤ 122) ∨ (48 ≤ c ∧ c ≤ 57)
        ∨ c = 43 ∨ c = 47 ∨ c = 61) := by
    intro c
    rw [inAlphabet_initBase64Map]
    constructor
    · rintro ⟨b, hb, rfl⟩
      exact (hB b).1 hb
    · intro h
      have hc : c < 256 := by omega
      refine ⟨⟨c, hc⟩, (hB ⟨c, hc⟩).2 h, rfl⟩
  have hlen : initBase64Map.length = 65 := by
    rw [initBase64Map_eq, List.length_map]
    decide
  have hval : ∀ e ∈ initBase64Map, e.2 = true := by
    intro e he
    rw [initBase64Map_eq] at he
    obtain ⟨b, _, rfl⟩ := List.mem_map.1 he
    rfl
  refine ⟨hlen, initBase64Map_keys_nodup, hval, ?_, hR, ?_⟩
  · intro k
    rw [mapGet_initBase64Map]
    constructor
    · rintro ⟨b, hb, rfl⟩
      exact ⟨b, rfl, (hB b).1 hb⟩
    · rintro ⟨b, rfl, h⟩
      exact ⟨b, (hB b).2 h, rfl⟩
  · intro c hc
    have hc' : (128 : Nat) ≤ (c : Nat) := hc
    have := hR c
    cases h : inAlphabet initBase64Map c
    · rfl
    · have := this.1 h
      omega

/-- C16. If `checkBase64Encoding` matches a word through the entropy path, that is, some
candidate has an entropy over the reals strictly greater than 4.5, then that candidate
contains at least 23 pairwise distinct characters of the alphabet: the entropy of a string
with `k` distinct characters is at most `log2 k`, and `log2 22 < 4.5`.  So no word shorter
than 23 characters (in bytes or in runes) is matched by the entropy path. -/
theorem entropy_match_needs_23_distinct (word : GoString) :
    (∀ c ∈ getEntropyCandidatesWithinWord word 20 initBase64Map,
      realOps.gt (getShannonEntropy realOps c BASE64_CHARS) (realOps.const 4.5) = true →
        (∀ b ∈ c, b ∈ BASE64_CHARS) ∧
        getShannonEntropy realOps c BASE64_CHARS ≤ Real.logb 2 c.toFinset.card ∧
        23 ≤ c.toFinset.card) ∧
    (∀ s : GoString, (∀ b ∈ s, b ∈ BASE64_CHARS) → s ≠ [] →
      getShannonEntropy realOps s BASE64_CHARS ≤ Real.logb 2 s.toFinset.card) ∧
    Real.logb 2 22 < 4.5 ∧
    ((word.length < 23 ∨ (rangeRunes word).length < 23) →
      (¬ ∃ c ∈ getEntropyCandidatesWithinWord word 20 initBase64Map,
        realOps.gt (getShannonEntropy realOps c BASE64_CHARS) (realOps.const 4.5) = true) ∧
      checkBase64Encoding realOps NewFileContentDetector word = []) := by
  have e3 : MIN_SECRET_LENGTH = 20 := rfl
  have e4 : BASE64_ENTROPY_THRESHOLD = 4.5 := rfl
  refine ⟨?_, ?_, ?_, ?_⟩
  · intro c hc hgt
    obtain ⟨hmem, _⟩ := mem_candidates_base64 word _ c hc
    rw [← e4] at hgt
    exact ⟨hmem, card_ge_23_of_entropy c hmem hgt⟩
  · intro s hmem hs
    rw [getShannonEntropy_eq_shannonEntropy_aux s hmem]
    exact shannonEntropy_le_logb_card s hs
  · have h := logb_lt_nine_halves 22 (by norm_num) (le_refl _)
    have h45 : (4.5 : ℝ) = 9 / 2 := by norm_num
    rw [h45]
    exact_mod_cast h
  · intro hshort
    have hlen : (rangeRunes word).length < 23 := by
      rcases hshort with h | h
      · exact lt_of_le_of_lt (rangeRunes_length_le word) h
      · exact h
    have hno := not_hit_of_short word hlen
    have h2 := checkBase64Encoding_of_no_hit realOps NewFileContentDetector word
    rw [NewFileContentDetector_base64Map, NewFileContentDetector_aggressiveDetector] at h2
    have h3 := h2 hno
    rw [e3, e4] at hno
    exact ⟨hno, h3⟩

set_option maxRecDepth 100000 in
/-- C16 at concrete inputs: the candidate of `ABCDEFGHIJKLMNOPQRSTUVW` is above the
threshold and has 23 distinct characters; the word `ABCDEFGHIJKLMNOPQRSTUV`, of 22
characters, is not matched. -/
theorem entropy_match_needs_23_distinct_witness :
    23 ≤ (lit "ABCDEFGHIJKLMNOPQRSTUVW").toFinset.card ∧
    checkBase64Encoding realOps NewFileContentDetector (lit "ABCDEFGHIJKLMNOPQRSTUV") = [] :=
  ⟨((entropy_match_needs_23_distinct (lit "ABCDEFGHIJKLMNOPQRSTUVW")).1
      (lit "ABCDEFGHIJKLMNOPQRSTUVW")
      (by rw [upper23_candidates]; exact List.mem_singleton.2 rfl)
      (by
        have e4 : BASE64_ENTROPY_THRESHOLD = 4.5 := rfl
        rw [← e4, entropy_gt_threshold_iff]
        decide)).2.2,
    ((entropy_match_needs_23_distinct (lit "ABCDEFGHIJKLMNOPQRSTUV")).2.2.2
      (Or.inl (by decide))).2⟩

/-- C17. The split into lines is redundant with the split into words: for every content,
`checkEachLine content` equals `checkEachWord content`.  Line feed is one of the white space
characters on which `strings.Fields` splits, so the words of the content are the words of
its lines, in order. -/
theorem checkEachLine_eq_checkEachWord {F : Type} (A : FloatOps F) (fc : FileContentDetector)
    (content : GoString) :
    checkEachLine A fc content = checkEachWord A fc content ∧
    stringsFields content = (stringsSplit content (lit "\n")).flatMap stringsFields ∧
    isSpace 10 = true ∧ lit "\n" = [(10 : Byte)] :=
  ⟨checkEachLine_eq_checkEachWord_aux A fc content, stringsFields_eq_lines content,
    by decide, lit_newline⟩

/-- C18. The fast rejection is a pure optimisation: for every word (a sequence of bytes,
valid UTF-8 or not), every minimum length and every alphabet set,
`getEntropyCandidatesWithinWord` returns the same list as the same method without the
initial early return `len(word) < minCandidateLength`.  The early return compares the
length in bytes and the runs are counted in runes, of which there are at most as many as
bytes. -/
theorem fast_rejection_pure_optimisation (word : GoString) (minCandidateLength : Int)
    (superSet : StringBoolMap) :
    getEntropyCandidatesWithinWord word minCandidateLength superSet
      = getEntropyCandidatesWithinWordNoGuard word minCandidateLength superSet ∧
    (rangeRunes word).length ≤ word.length :=
  ⟨getEntropyCandidatesWithinWord_eq_noGuard word minCandidateLength superSet,
    rangeRunes_length_le word⟩

/-- C19. For every word that consists of `n` pairwise distinct characters of the base64
alphabet with `23 ≤ n` (and then `n ≤ 65`), the word is its own candidate, its entropy
over the reals is `log2 n`, which is above 4.5, and `checkBase64Encoding` returns the word,
with or without a secondary detector. -/
theorem distinct_chars_flagged (word : GoString) (hmem : ∀ b ∈ word, b ∈ BASE64_CHARS)
    (hnd : word.Nodup) (hlen : 23 ≤ word.length) :
    word.length ≤ 65 ∧
    getEntropyCandidatesWithinWord word 20 initBase64Map = [word] ∧
    getShannonEntropy realOps word BASE64_CHARS = Real.logb 2 word.length ∧
    (4.5 : ℝ) < Real.logb 2 word.length ∧
    realOps.gt (getShannonEntropy realOps word BASE64_CHARS) (realOps.const 4.5) = true ∧
    checkBase64Encoding realOps NewFileContentDetector word = word ∧
    (∀ aggressiveTest : GoString → GoString,
      checkBase64Encoding realOps (AggressiveMode NewFileContentDetector aggressiveTest) word
        = word) := by
  obtain ⟨hc, he⟩ := nodup_word_entropy word hmem hnd (by omega)
  have hlog := nine_halves_lt_logb _ hlen
  have h45 : (4.5 : ℝ) = 9 / 2 := by norm_num
  have e4 : BASE64_ENTROPY_THRESHOLD = 4.5 := rfl
  refine ⟨length_le_65_of_nodup word hmem hnd, hc, he, by rw [h45]; exact hlog, ?_,
    nodup_word_flagged _ NewFileContentDetector_base64Map word hmem hnd hlen,
    fun t => nodup_word_flagged _ (AggressiveMode_base64Map t) word hmem hnd hlen⟩
  rw [← e4, realOps_gt_iff, realOps_threshold, he]
  exact hlog

set_option maxRecDepth 100000 in
/-- C19 at a concrete input: the word `ABCDEFGHIJKLMNOPQRSTUVW`, of 23 distinct
characters, is flagged. -/
theorem distinct_chars_flagged_witness :
    (∀ b ∈ lit "ABCDEFGHIJKLMNOPQRSTUVW", b ∈ BASE64_CHARS) ∧
    (lit "ABCDEFGHIJKLMNOPQRSTUVW").Nodup ∧
    23 ≤ (lit "ABCDEFGHIJKLMNOPQRSTUVW").length ∧
    checkBase64Encoding realOps NewFileContentDetector (lit "ABCDEFGHIJKLMNOPQRSTUVW")
      = lit "ABCDEFGHIJKLMNOPQRSTUVW" :=
  ⟨upper23_mem, upper23_nodup, by decide,
    (distinct_chars_flagged (lit "ABCDEFGHIJKLMNOPQRSTUVW") upper23_mem upper23_nodup
      (by decide)).2.2.2.2.2.1⟩

end Talisman
